import Mathlib

/-!
# Verification of the Advance-Clipboard storage and backup core

Shallow embedding of `src/storage.py` (the SQLite clip store), the live
backup subsystem `src/backup_manager.py`, and the legacy `src/backup.py`
`BackupManager` class, followed by theorems settling the specification
claims.

Modelling conventions:
* Timestamps are integers (milliseconds); `datetime.now().isoformat()`
  strings sort chronologically, and the history-reorder path of
  `move_clip` subtracts `i * 0.001` seconds (= `i` milliseconds) per
  position, which is `- i` here.
* `hashlib.md5(...).hexdigest()` and `hashlib.sha256(...).hexdigest()` are
  modelled by tagged string functions; the proofs use only that a digest is
  a deterministic function of its input, together with inequality of
  digests at concrete inputs (which holds for real MD5/SHA-256 at those
  inputs).
* The SQLite table `clips` is a list of rows; `AUTOINCREMENT` is the
  `next_id` counter; `UPDATE ... WHERE id = ?` maps over the list;
  `fetchone` of an unordered `SELECT` takes the first match in list order.
* `_mark_dirty` sets `need_backup` and invokes the registered backup
  callback; the model counts those invocations in `notify_count`.
-/

/-- One row of the `clips` table (schema in `ClipboardStorage._init_db`). -/
structure Clip where
  id : Nat
  ctype : String
  content : String
  hash : String
  tag : String
  group_name : String
  is_pinned : Bool
  pin_order : Int
  created_at : Int
  updated_at : Int
deriving Repr, DecidableEq

/-- Model of `ClipboardStorage.compute_hash` (MD5 hex digest of the
content).  Stands in for `hashlib.md5(content.encode(...)).hexdigest()`;
only determinism and concrete-input distinctness are used. -/
def compute_hash (content : String) : String :=
  "md5:" ++ content

/-- The observable state of `ClipboardStorage`: the `clips` table, the
`AUTOINCREMENT` counter, the `_need_backup` flag, and the number of times
`_mark_dirty` has invoked the registered `_backup_callback`. -/
structure StoreState where
  clips : List Clip
  next_id : Nat
  need_backup : Bool
  notify_count : Nat
deriving Repr, DecidableEq

/-- Fresh store: empty table, AUTOINCREMENT starts at 1, clean flag. -/
def initialState : StoreState :=
  { clips := [], next_id := 1, need_backup := false, notify_count := 0 }

/-- `UPDATE clips SET ... WHERE id = ?`: apply `f` to the row(s) with the
given id. -/
def updateClip (cs : List Clip) (cid : Nat) (f : Clip → Clip) : List Clip :=
  cs.map (fun c => if c.id = cid then f c else c)

/-- `SELECT ... FROM clips WHERE id = ?` followed by `fetchone`. -/
def findClip (cs : List Clip) (cid : Nat) : Option Clip :=
  cs.find? (fun c => c.id = cid)

/-- `SELECT ... FROM clips WHERE hash = ?` followed by `fetchone`. -/
def findByHash (cs : List Clip) (h : String) : Option Clip :=
  cs.find? (fun c => c.hash = h)

/-- `ClipboardStorage._mark_dirty`: set the `_need_backup` flag and invoke
the registered backup callback once. -/
def markDirty (s : StoreState) : StoreState :=
  { s with need_backup := true, notify_count := s.notify_count + 1 }

/-- `UPDATE clips SET updated_at = ? ...`: refresh only the timestamp. -/
def touchUpdated (now : Int) (c : Clip) : Clip :=
  { c with updated_at := now }

/-- The row built by the `INSERT` of `add_clip`: `is_pinned = 0` explicit,
columns `pin_order` and `group_name` take their schema defaults. -/
def newRow (idv : Nat) (clip_type content tag : String) (now : Int) : Clip :=
  { id := idv, ctype := clip_type, content := content,
    hash := compute_hash content, tag := tag, group_name := "",
    is_pinned := false, pin_order := 0, created_at := now,
    updated_at := now }

/-- `ClipboardStorage.add_clip`: dedup by content hash.  On a duplicate,
refresh `updated_at` and return `(existing id, false)`; otherwise insert a
new row and return `(new id, true)`.  Both branches call `_mark_dirty`. -/
def add_clip (s : StoreState) (clip_type content tag : String) (now : Int) :
    StoreState × Nat × Bool :=
  let content_hash := compute_hash content
  match findByHash s.clips content_hash with
  | some existing =>
      (markDirty { s with
        clips := updateClip s.clips existing.id (touchUpdated now) },
       existing.id, false)
  | none =>
      (markDirty { s with
        clips := s.clips ++ [newRow s.next_id clip_type content tag now],
        next_id := s.next_id + 1 },
       s.next_id, true)

/-- `COALESCE(MAX(pin_order), 0) FROM clips WHERE is_pinned = 1`. -/
def maxPinOrder (cs : List Clip) : Int :=
  match (cs.filter (fun c => c.is_pinned)).map (fun c => c.pin_order) with
  | [] => 0
  | o :: os => os.foldl max o

/-- `ClipboardStorage.pin_clip`: set `is_pinned = 1`,
`pin_order = max + 1`, refresh `updated_at`; always dirty, returns True. -/
def pin_clip (s : StoreState) (clip_id : Nat) (now : Int) :
    StoreState × Bool :=
  let mo := maxPinOrder s.clips
  (markDirty { s with
    clips := updateClip s.clips clip_id
      (fun c => { c with is_pinned := true, pin_order := mo + 1,
                         updated_at := now }) },
   true)

/-- `ClipboardStorage.unpin_clip`: set `is_pinned = 0`, `pin_order = 0`,
refresh `updated_at`; always dirty, returns True. -/
def unpin_clip (s : StoreState) (clip_id : Nat) (now : Int) :
    StoreState × Bool :=
  (markDirty { s with
    clips := updateClip s.clips clip_id
      (fun c => { c with is_pinned := false, pin_order := 0,
                         updated_at := now }) },
   true)

/-- `ClipboardStorage.delete_clip`: `DELETE FROM clips WHERE id = ?`;
always dirty, returns True. -/
def delete_clip (s : StoreState) (clip_id : Nat) : StoreState × Bool :=
  (markDirty { s with clips := s.clips.filter (fun c => ¬ c.id = clip_id) },
   true)

/-- `ClipboardStorage.update_tag`. -/
def update_tag (s : StoreState) (clip_id : Nat) (tag : String) :
    StoreState × Bool :=
  (markDirty { s with
    clips := updateClip s.clips clip_id (fun c => { c with tag := tag }) },
   true)

/-- `ClipboardStorage.update_group`. -/
def update_group (s : StoreState) (clip_id : Nat) (group_name : String) :
    StoreState × Bool :=
  (markDirty { s with
    clips := updateClip s.clips clip_id
      (fun c => { c with group_name := group_name }) },
   true)

/-- Insertion sort step for ordering clips by `updated_at` descending
(`ORDER BY updated_at DESC`). -/
def insertByUpdatedDesc (c : Clip) : List Clip → List Clip
  | [] => [c]
  | d :: ds =>
      if d.updated_at ≥ c.updated_at then d :: insertByUpdatedDesc c ds
      else c :: d :: ds

/-- `ORDER BY updated_at DESC` over a list of rows. -/
def sortByUpdatedDesc (cs : List Clip) : List Clip :=
  cs.foldr insertByUpdatedDesc []

/-- Swap the entries at positions `i` and `j` of a list (the Python
`clip_ids[idx], clip_ids[new_idx] = clip_ids[new_idx], clip_ids[idx]`). -/
def swapAt (l : List Nat) (i j : Nat) : List Nat :=
  match l[i]?, l[j]? with
  | some a, some b => (l.set i b).set j a
  | _, _ => l

/-- The timestamp-rewrite loop of the history branch of `move_clip`:
row `clip_ids[i]` gets `updated_at = base - i` (milliseconds). -/
def rewriteTimestamps (cs : List Clip) (ids : List Nat) (base : Int) :
    List Clip :=
  ids.enum.foldl
    (fun acc p =>
      updateClip acc p.2 (fun c => { c with updated_at := base - p.1 }))
    cs

/-- `UPDATE clips SET pin_order = ? WHERE id = ?`'s row transformer. -/
def setOrder (o : Int) (c : Clip) : Clip := { c with pin_order := o }

/-- The pinned branch of `move_clip`: read the row's `pin_order`
(returning False with no dirty-mark when the id is absent), look for a
*pinned* row holding `pin_order + direction`, and if found swap the two
`pin_order` values (the source issues the target-row update twice; the
repeat is a no-op).  Ends in `_mark_dirty` and True whenever the moving
row exists, target or not. -/
def move_pinned (s : StoreState) (clip_id : Nat) (direction : Int) :
    StoreState × Bool :=
  match findClip s.clips clip_id with
  | none => (s, false)
  | some current =>
      let new_order := current.pin_order + direction
      match s.clips.find?
          (fun c => c.is_pinned && decide (c.pin_order = new_order)) with
      | some t =>
          let cs1 := updateClip s.clips clip_id (setOrder new_order)
          let cs2 := updateClip cs1 t.id (setOrder current.pin_order)
          let cs3 := updateClip cs2 t.id (setOrder current.pin_order)
          (markDirty { s with clips := cs3 }, true)
      | none => (markDirty s, true)

/-- The history branch of `move_clip`: materialise the unpinned rows in
`updated_at DESC` order, swap the two adjacent positions when the new
index is in bounds, and rewrite every listed row's `updated_at` with
decreasing timestamps; returns False (no dirty-mark) only when the id is
not among the unpinned rows. -/
def move_history (s : StoreState) (clip_id : Nat) (direction : Int)
    (now : Int) : StoreState × Bool :=
  let clip_ids :=
    (sortByUpdatedDesc (s.clips.filter (fun c => ¬ c.is_pinned))).map
      (fun c => c.id)
  if clip_id ∈ clip_ids then
    let idx := clip_ids.indexOf clip_id
    let new_idx : Int := (idx : Int) + direction
    if 0 ≤ new_idx ∧ new_idx < clip_ids.length then
      let ids := swapAt clip_ids idx new_idx.toNat
      (markDirty { s with clips := rewriteTimestamps s.clips ids now },
       true)
    else
      (markDirty s, true)
  else
    (s, false)

/-- `ClipboardStorage.move_clip`: dispatch on the `is_pinned` argument. -/
def move_clip (s : StoreState) (clip_id : Nat) (direction : Int)
    (is_pinned : Bool) (now : Int) : StoreState × Bool :=
  if is_pinned then move_pinned s clip_id direction
  else move_history s clip_id direction now

/-- `ClipboardStorage.clear_history`: delete all unpinned rows, return the
count deleted. -/
def clear_history (s : StoreState) : StoreState × Nat :=
  let deleted := (s.clips.filter (fun c => ¬ c.is_pinned)).length
  (markDirty { s with clips := s.clips.filter (fun c => c.is_pinned) },
   deleted)

/-- `ClipboardStorage.clear_pinned`: delete all pinned rows, return the
count deleted. -/
def clear_pinned (s : StoreState) : StoreState × Nat :=
  let deleted := (s.clips.filter (fun c => c.is_pinned)).length
  (markDirty { s with clips := s.clips.filter (fun c => ¬ c.is_pinned) },
   deleted)

/-- One input dictionary handed to `ClipboardStorage.import_clips`.
`hash = none` models an absent (or falsy) `"hash"` key, in which case the
hash is recomputed from the content; likewise for the other `.get`
defaults.  The `pin_order` key may be present in the dictionary (the
legacy importer sets it) but `import_clips` never reads it. -/
structure ClipRecord where
  rtype : Option String
  content : Option String
  tag : Option String
  is_pinned : Bool
  hash : Option String
  pin_order : Option Int
  created_at : Option Int
  updated_at : Option Int
deriving Repr, DecidableEq

/-- The schema constraint `CHECK(type IN ('text', 'image'))`, which
`INSERT OR IGNORE` turns into silently skipping the row. -/
def isValidType (t : String) : Bool :=
  t = "text" ∨ t = "image"

/-- One iteration of the `import_clips` loop: `INSERT OR IGNORE` skips the
row when its hash is already present (the `UNIQUE` constraint) or its type
violates the `CHECK` constraint, raising no error; the columns inserted
are `(type, content, hash, tag, is_pinned, created_at, updated_at)` — the
`pin_order` and `group_name` columns take their defaults `0` and `''`.
`count` is incremented unconditionally (the `except sqlite3.IntegrityError`
branch is unreachable under `OR IGNORE`). -/
def importOne (now : Int) (acc : StoreState × Nat) (r : ClipRecord) :
    StoreState × Nat :=
  let s := acc.1
  let content := r.content.getD ""
  let clip_type := r.rtype.getD "text"
  let tag := r.tag.getD ""
  let content_hash := r.hash.getD (compute_hash content)
  let created_at := r.created_at.getD now
  let updated_at := r.updated_at.getD created_at
  let row : Clip :=
    { id := s.next_id, ctype := clip_type, content := content,
      hash := content_hash, tag := tag, group_name := "",
      is_pinned := r.is_pinned, pin_order := 0, created_at := created_at,
      updated_at := updated_at }
  let s' :=
    if (findByHash s.clips content_hash).isSome ∨ ¬ isValidType clip_type
    then s
    else { s with clips := s.clips ++ [row], next_id := s.next_id + 1 }
  (s', acc.2 + 1)

/-- `ClipboardStorage.import_clips`: fold `importOne` over the records.
No call to `_mark_dirty` occurs anywhere in the method. -/
def import_clips (s : StoreState) (records : List ClipRecord) (now : Int) :
    StoreState × Nat :=
  records.foldl (importOne now) (s, 0)

/-- One entry of the legacy `data.json` lists: either a plain string or a
partial object (`normalize_clip_item`'s two cases). -/
inductive LegacyItem where
  | str (s : String)
  | obj (rtype content tag : Option String)
deriving Repr, DecidableEq

/-- `normalize_clip_item`: `(type, content, tag)` with defaults
`("text", "", "")` for missing keys; a bare string becomes a text clip. -/
def normalize_clip_item : LegacyItem → String × String × String
  | .obj t c tg => (t.getD "text", c.getD "", tg.getD "")
  | .str s => ("text", s, "")

/-- `import_legacy_json` (file read and JSON parsing elided): pinned items
first with `pin_order = len(pinned) - i` ("Maintain order") and
`is_pinned = True`, then history items with `is_pinned = False`,
`pin_order = 0`; all timestamps set to `now`. -/
def import_legacy_json (pinned history : List LegacyItem) (now : Int) :
    List ClipRecord :=
  (pinned.enum.map (fun p =>
    let n := normalize_clip_item p.2
    { rtype := some n.1, content := some n.2.1, tag := some n.2.2,
      is_pinned := true, hash := none,
      pin_order := some ((pinned.length : Int) - p.1),
      created_at := some now, updated_at := some now }))
  ++ (history.map (fun item =>
    let n := normalize_clip_item item
    { rtype := some n.1, content := some n.2.1, tag := some n.2.2,
      is_pinned := false, hash := none, pin_order := some 0,
      created_at := some now, updated_at := some now }))

/-- Model of `hashlib.sha256(data.encode("utf-8")).hexdigest()`
(`compute_checksum` in `backup_manager.py` and the inline digests in
`backup.py`).  Only determinism and concrete-input distinctness are used. -/
def compute_checksum (data : String) : String :=
  "sha256:" ++ data

/-- JSON string literal (escaping elided; no claim input needs it). -/
def jstr (s : String) : String :=
  "\x22" ++ s ++ "\x22"

/-- `json.dumps` of one clip row dict with `sort_keys=True`: keys in
alphabetical order `content, created_at, group_name, hash, id, is_pinned,
pin_order, tag, type, updated_at` (`is_pinned` is the SQLite 0/1
integer). -/
def clipJson (c : Clip) : String :=
  "\x7b" ++ jstr "content" ++ ": " ++ jstr c.content ++ ", "
  ++ jstr "created_at" ++ ": " ++ toString c.created_at ++ ", "
  ++ jstr "group_name" ++ ": " ++ jstr c.group_name ++ ", "
  ++ jstr "hash" ++ ": " ++ jstr c.hash ++ ", "
  ++ jstr "id" ++ ": " ++ toString c.id ++ ", "
  ++ jstr "is_pinned" ++ ": " ++ (if c.is_pinned then "1" else "0") ++ ", "
  ++ jstr "pin_order" ++ ": " ++ toString c.pin_order ++ ", "
  ++ jstr "tag" ++ ": " ++ jstr c.tag ++ ", "
  ++ jstr "type" ++ ": " ++ jstr c.ctype ++ ", "
  ++ jstr "updated_at" ++ ": " ++ toString c.updated_at ++ "\x7d"

/-- `json.dumps(clips, ensure_ascii=False, sort_keys=True)`: the canonical
serialization of the clips list used by `create_backup` and
`validate_backup` in `backup_manager.py`. -/
def clipsJson (cs : List Clip) : String :=
  "[" ++ String.intercalate ", " (cs.map clipJson) ++ "]"

/-- A parsed backup JSON document: each field is `none` when the key is
absent.  Covers both the v1 layout (`clips`/`clip_count`) written by
`backup_manager.create_backup` and the v2 layout (`history`/`pinned`)
written by `backup.BackupManager._do_backup`. -/
structure RawDoc where
  version : Option Nat
  created_at : Option Int
  clips : Option (List Clip)
  history : Option (List Clip)
  pinned : Option (List Clip)
  checksum : Option String
  clip_count : Option Nat
deriving Repr, DecidableEq

/-- Render an optional field as a JSON key/value chunk, empty if absent. -/
def fieldJson (key : String) (v : Option String) : String :=
  match v with
  | none => ""
  | some s => jstr key ++ ": " ++ s ++ ", "

/-- The full backup document as `json.dump` writes it (insertion order
`version, created_at, clips, checksum, clip_count`; the `indent=2`
whitespace is elided — it is identical for documents with the same keys,
so two renderings differ exactly where the compact forms differ). -/
def docJson (d : RawDoc) : String :=
  "\x7b" ++ fieldJson "version" (d.version.map toString)
  ++ fieldJson "created_at" (d.created_at.map toString)
  ++ fieldJson "clips" (d.clips.map clipsJson)
  ++ fieldJson "history" (d.history.map clipsJson)
  ++ fieldJson "pinned" (d.pinned.map clipsJson)
  ++ fieldJson "checksum" (d.checksum.map jstr)
  ++ fieldJson "clip_count" (d.clip_count.map toString)
  ++ "\x7d"

/-- `json.dumps(data_for_hash, sort_keys=True, ...)` where `data_for_hash`
drops the `checksum` key: present keys in alphabetical order
`clip_count, clips, created_at, history, pinned, version`.  Used by
`backup.BackupManager` for both writing and validating. -/
def docJsonNoChecksum (d : RawDoc) : String :=
  "\x7b" ++ fieldJson "clip_count" (d.clip_count.map toString)
  ++ fieldJson "clips" (d.clips.map clipsJson)
  ++ fieldJson "created_at" (d.created_at.map toString)
  ++ fieldJson "history" (d.history.map clipsJson)
  ++ fieldJson "pinned" (d.pinned.map clipsJson)
  ++ fieldJson "version" (d.version.map toString)
  ++ "\x7d"

/-- The document assembled by `backup_manager.create_backup`: v1 layout,
checksum computed over `clipsJson clips` alone (not over `version`,
`created_at` or `clip_count`). -/
def create_backup_doc (clips : List Clip) (now : Int) : RawDoc :=
  { version := some 1, created_at := some now, clips := some clips,
    history := none, pinned := none,
    checksum := some (compute_checksum (clipsJson clips)),
    clip_count := some clips.length }

/-- `backup_manager.validate_backup` (file I/O and JSON parse elided):
requires the `clips` and `checksum` keys, recomputes the checksum of the
`clips` list, and returns `(True, clips)` on match, `(False, None)` on any
failure. -/
def validate_backup (d : RawDoc) : Bool × Option (List Clip) :=
  match d.clips, d.checksum with
  | some clips, some stored =>
      if stored = compute_checksum (clipsJson clips) then (true, some clips)
      else (false, none)
  | _, _ => (false, none)

/-- The document assembled by `backup.BackupManager._do_backup`: v2 layout
with `history`/`pinned` lists; the checksum is computed over the whole
document minus the `checksum` key. -/
def bk_do_backup_doc (history pinned : List Clip) (now : Int) : RawDoc :=
  let base : RawDoc :=
    { version := some 2, created_at := some now, clips := none,
      history := some history, pinned := some pinned, checksum := none,
      clip_count := none }
  { base with checksum := some (compute_checksum (docJsonNoChecksum base)) }

/-- `backup.BackupManager.validate_backup`: requires `history` or `pinned`
to be present; verifies the whole-document checksum only when a `checksum`
key is present; returns `(True, data)` or `(False, None)`. -/
def bk_validate_backup (d : RawDoc) : Bool × Option RawDoc :=
  if d.history = none ∧ d.pinned = none then (false, none)
  else
    match d.checksum with
    | some stored =>
        if stored = compute_checksum (docJsonNoChecksum d) then
          (true, some d)
        else (false, none)
    | none => (true, some d)

/-- Discrete-event semantics of `BackupScheduler` (`backup_manager.py`):
`schedule` cancels any pending `threading.Timer` and arms a new one for
`_debounce_seconds = 30`; the armed timer fires at its deadline unless a
later `schedule` call comes strictly before it, and `_execute_backup`
then runs the backup callback once.  `fireTimes ts` lists the callback
invocation times for the time-ordered list `ts` of `schedule` calls. -/
def fireTimes : List Nat → List Nat
  | [] => []
  | [t] => [t + 30]
  | t :: t' :: rest =>
      (if t' < t + 30 then [] else [t + 30]) ++ fireTimes (t' :: rest)

/-- `MAX_BACKUPS` in `backup_manager.py`. -/
def MAX_BACKUPS : Nat := 10

/-- Insertion step of descending sort on backup timestamps. -/
def insertDesc (t : Nat) : List Nat → List Nat
  | [] => [t]
  | x :: xs => if x ≤ t then t :: x :: xs else x :: insertDesc t xs

/-- `sorted(files, reverse=True)`: backup filenames embed a fixed-width
timestamp, so lexicographic order on names is numeric order on the
timestamps, which stand for the files here. -/
def sortDesc (l : List Nat) : List Nat := l.foldr insertDesc []

/-- `rotate_backups`: keep only the `MAX_BACKUPS` newest files; the
directory is represented newest-first as `get_backup_files` lists it. -/
def rotate_backups (dir : List Nat) : List Nat :=
  (sortDesc dir).take MAX_BACKUPS

/-- The filesystem effect of one successful `create_backup` call at
timestamp `t`: `os.replace` writes the file named by `t` (overwriting a
same-named file), then `rotate_backups` runs. -/
def create_backup_fs (dir : List Nat) (t : Nat) : List Nat :=
  rotate_backups (if t ∈ dir then dir else t :: dir)

/-- The backup directory after a sequence of `create_backup` calls,
starting from an empty directory. -/
def write_backups (ts : List Nat) : List Nat :=
  ts.foldl create_backup_fs []

/-- States reachable from a fresh store through the public mutating
operations of `ClipboardStorage`. -/
inductive Reach : StoreState → Prop where
  | init : Reach initialState
  | add (s : StoreState) (ty content tag : String) (t : Int) :
      Reach s → Reach (add_clip s ty content tag t).1
  | pin (s : StoreState) (cid : Nat) (t : Int) :
      Reach s → Reach (pin_clip s cid t).1
  | unpin (s : StoreState) (cid : Nat) (t : Int) :
      Reach s → Reach (unpin_clip s cid t).1
  | del (s : StoreState) (cid : Nat) :
      Reach s → Reach (delete_clip s cid).1
  | tag (s : StoreState) (cid : Nat) (tg : String) :
      Reach s → Reach (update_tag s cid tg).1
  | grp (s : StoreState) (cid : Nat) (g : String) :
      Reach s → Reach (update_group s cid g).1
  | mv (s : StoreState) (cid : Nat) (d : Int) (p : Bool) (t : Int) :
      Reach s → Reach (move_clip s cid d p t).1
  | clrH (s : StoreState) : Reach s → Reach (clear_history s).1
  | clrP (s : StoreState) : Reach s → Reach (clear_pinned s).1
  | imp (s : StoreState) (recs : List ClipRecord) (t : Int) :
      Reach s → Reach (import_clips s recs t).1

/-- Restricted reachability: like `Reach`, but `move_clip` with the pinned
flag is only invoked on ids of currently pinned rows, and `import_clips`
only receives unpinned records. -/
inductive ReachR : StoreState → Prop where
  | init : ReachR initialState
  | add (s : StoreState) (ty content tag : String) (t : Int) :
      ReachR s → ReachR (add_clip s ty content tag t).1
  | pin (s : StoreState) (cid : Nat) (t : Int) :
      ReachR s → ReachR (pin_clip s cid t).1
  | unpin (s : StoreState) (cid : Nat) (t : Int) :
      ReachR s → ReachR (unpin_clip s cid t).1
  | del (s : StoreState) (cid : Nat) :
      ReachR s → ReachR (delete_clip s cid).1
  | tag (s : StoreState) (cid : Nat) (tg : String) :
      ReachR s → ReachR (update_tag s cid tg).1
  | grp (s : StoreState) (cid : Nat) (g : String) :
      ReachR s → ReachR (update_group s cid g).1
  | mvPin (s : StoreState) (cid : Nat) (d : Int) (t : Int) :
      ReachR s → (∃ c ∈ s.clips, c.id = cid ∧ c.is_pinned = true) →
      ReachR (move_clip s cid d true t).1
  | mvHist (s : StoreState) (cid : Nat) (d : Int) (t : Int) :
      ReachR s → ReachR (move_clip s cid d false t).1
  | clrH (s : StoreState) : ReachR s → ReachR (clear_history s).1
  | clrP (s : StoreState) : ReachR s → ReachR (clear_pinned s).1
  | imp (s : StoreState) (recs : List ClipRecord) (t : Int) :
      ReachR s → (∀ r ∈ recs, r.is_pinned = false) →
      ReachR (import_clips s recs t).1

/-- The pin-order list of the currently pinned rows. -/
def pinnedOrders (cs : List Clip) : List Int :=
  (cs.filter (fun c => c.is_pinned)).map (fun c => c.pin_order)

/-- List-level pin-order invariant: row ids are unique and below the
AUTOINCREMENT counter, pinned rows hold pairwise-distinct positive pin
orders, and unpinned rows hold pin order 0. -/
def PinInvL (cs : List Clip) (nid : Nat) : Prop :=
  (cs.map Clip.id).Nodup
  ∧ (∀ c ∈ cs, c.id < nid)
  ∧ (pinnedOrders cs).Nodup
  ∧ (∀ c ∈ cs, c.is_pinned = true → 1 ≤ c.pin_order)
  ∧ (∀ c ∈ cs, c.is_pinned = false → c.pin_order = 0)

/-- The pin-order invariant of claim C6, strengthened to an inductive
invariant. -/
def PinInv (s : StoreState) : Prop :=
  PinInvL s.clips s.next_id

/-- Transposition of two pin-order values, the effect of the rank swap of
`move_clip`'s pinned branch on the multiset of pin orders. -/
def swapInt (o n v : Int) : Int :=
  if v = o then n else if v = n then o else v

/-- A pinned table row, as used in concrete witness states. -/
def pinnedClip (idv : Nat) (content : String) (o : Int) : Clip :=
  { id := idv, ctype := "text", content := content,
    hash := compute_hash content, tag := "", group_name := "",
    is_pinned := true, pin_order := o, created_at := 0, updated_at := 0 }

/-- A concrete store holding two pinned clips with pin orders 1 and 2. -/
def twoPinnedState : StoreState :=
  { clips := [pinnedClip 1 "a" 1, pinnedClip 2 "b" 2], next_id := 3,
    need_backup := false, notify_count := 0 }

/-- A plain-text record as `import_clips` receives it (only the content
key, everything else defaulted). -/
def textRecord (content : String) : ClipRecord :=
  { rtype := none, content := some content, tag := none, is_pinned := false,
    hash := none, pin_order := none, created_at := none, updated_at := none }

/-- A pinned record as `restore_from_backup`/`try_recovery` build them. -/
def pinnedRecord (content : String) : ClipRecord :=
  { textRecord content with is_pinned := true }

/-- Number of rows of the table carrying a given content hash. -/
def hashCount (cs : List Clip) (h : String) : Nat :=
  (cs.filter (fun c => c.hash = h)).length

/-- The row transformer `UPDATE ... WHERE id = ?` applies. -/
def whereId (cid : Nat) (f : Clip → Clip) : Clip → Clip :=
  fun c => if c.id = cid then f c else c

theorem updateClip_eq_map (cs : List Clip) (cid : Nat) (f : Clip → Clip) :
    updateClip cs cid f = cs.map (whereId cid f) := rfl

theorem whereId_hash (cid : Nat) (f : Clip → Clip)
    (hf : ∀ c, (f c).hash = c.hash) (c : Clip) :
    (whereId cid f c).hash = c.hash := by
  unfold whereId
  split <;> simp [hf]

theorem findByHash_updateClip (cs : List Clip) (cid : Nat) (f : Clip → Clip)
    (hf : ∀ c, (f c).hash = c.hash) (h : String) :
    findByHash (updateClip cs cid f) h =
      (findByHash cs h).map (whereId cid f) := by
  have hp : ((fun c : Clip => decide (c.hash = h)) ∘ whereId cid f)
      = (fun c : Clip => decide (c.hash = h)) := by
    funext c
    simp [Function.comp, whereId_hash cid f hf c]
  unfold findByHash
  rw [updateClip_eq_map, List.find?_map, hp]

theorem hashCount_updateClip (cs : List Clip) (cid : Nat) (f : Clip → Clip)
    (hf : ∀ c, (f c).hash = c.hash) (h : String) :
    hashCount (updateClip cs cid f) h = hashCount cs h := by
  have hp : ((fun c : Clip => decide (c.hash = h)) ∘ whereId cid f)
      = (fun c : Clip => decide (c.hash = h)) := by
    funext c
    simp [Function.comp, whereId_hash cid f hf c]
  unfold hashCount
  rw [updateClip_eq_map, List.filter_map, hp, List.length_map]

@[simp] theorem markDirty_clips (s : StoreState) :
    (markDirty s).clips = s.clips := rfl

@[simp] theorem markDirty_next_id (s : StoreState) :
    (markDirty s).next_id = s.next_id := rfl

@[simp] theorem markDirty_need_backup (s : StoreState) :
    (markDirty s).need_backup = true := rfl

@[simp] theorem markDirty_notify_count (s : StoreState) :
    (markDirty s).notify_count = s.notify_count + 1 := rfl

@[simp] theorem touchUpdated_hash (t : Int) (c : Clip) :
    (touchUpdated t c).hash = c.hash := rfl

@[simp] theorem touchUpdated_id (t : Int) (c : Clip) :
    (touchUpdated t c).id = c.id := rfl

theorem findByHash_updateClip_touch (cs : List Clip) (cid : Nat) (t : Int)
    (h : String) :
    findByHash (updateClip cs cid (touchUpdated t)) h =
      (findByHash cs h).map (whereId cid (touchUpdated t)) :=
  findByHash_updateClip cs cid (touchUpdated t) (fun _ => rfl) h

theorem hashCount_updateClip_touch (cs : List Clip) (cid : Nat) (t : Int)
    (h : String) :
    hashCount (updateClip cs cid (touchUpdated t)) h = hashCount cs h :=
  hashCount_updateClip cs cid (touchUpdated t) (fun _ => rfl) h

@[simp] theorem whereId_touch_hash (cid : Nat) (t : Int) (c : Clip) :
    (whereId cid (touchUpdated t) c).hash = c.hash :=
  whereId_hash cid (touchUpdated t) (fun _ => rfl) c

theorem add_clip_dup {s : StoreState} {e : Clip} (ty content tag : String)
    (t : Int) (hfind : findByHash s.clips (compute_hash content) = some e) :
    add_clip s ty content tag t =
      (markDirty { s with
         clips := updateClip s.clips e.id (touchUpdated t) },
       e.id, false) := by
  simp only [add_clip]
  rw [hfind]

theorem add_clip_new {s : StoreState} (ty content tag : String) (t : Int)
    (hfind : findByHash s.clips (compute_hash content) = none) :
    add_clip s ty content tag t =
      (markDirty { s with
         clips := s.clips ++ [newRow s.next_id ty content tag t],
         next_id := s.next_id + 1 },
       s.next_id, true) := by
  simp only [add_clip]
  rw [hfind]

theorem eq_of_hashCount_le_one {cs : List Clip} {h : String}
    (huniq : hashCount cs h ≤ 1) {a b : Clip} (ha : a ∈ cs) (hb : b ∈ cs)
    (hha : a.hash = h) (hhb : b.hash = h) : a = b := by
  have ha' : a ∈ cs.filter (fun c => decide (c.hash = h)) :=
    List.mem_filter.mpr ⟨ha, by simp [hha]⟩
  have hb' : b ∈ cs.filter (fun c => decide (c.hash = h)) :=
    List.mem_filter.mpr ⟨hb, by simp [hhb]⟩
  unfold hashCount at huniq
  rcases hfl : cs.filter (fun c => decide (c.hash = h)) with _ | ⟨x, _ | ⟨y, t⟩⟩
  · rw [hfl] at ha'
    simp at ha'
  · rw [hfl] at ha' hb'
    simp only [List.mem_singleton] at ha' hb'
    rw [ha', hb']
  · rw [hfl] at huniq
    simp at huniq

theorem hashCount_pos_of_find {cs : List Clip} {h : String} {e : Clip}
    (hf : findByHash cs h = some e) : 1 ≤ hashCount cs h := by
  have he : e ∈ cs := List.mem_of_find?_eq_some hf
  have hhe : e.hash = h := by simpa using List.find?_some hf
  have hmem : e ∈ cs.filter (fun c => decide (c.hash = h)) :=
    List.mem_filter.mpr ⟨he, by simp [hhe]⟩
  exact List.length_pos_of_mem hmem

theorem hash_of_find {cs : List Clip} {h : String} {e : Clip}
    (hf : findByHash cs h = some e) : e.hash = h := by
  simpa using List.find?_some hf

/-- C1: for every content string, calling `add_clip` twice with that
content yields the same id both times and leaves the store with exactly
one row carrying that content hash; the second call returns
`(existingId, false)` and sets that row's `updated_at` to the second
call's `now`, while a first-time content inserts a new row with
`is_pinned = false`, `pin_order = 0`, both timestamps set to `now`, and
returns `(newId, true)`.  (Stated over any store whose rows satisfy the
`UNIQUE(hash)` constraint for this hash, which SQLite enforces.) -/
theorem addClip_dedup (s : StoreState) (ty content tag1 tag2 : String)
    (t1 t2 : Int)
    (huniq : hashCount s.clips (compute_hash content) ≤ 1) :
    (add_clip (add_clip s ty content tag1 t1).1 ty content tag2 t2).2.1
        = (add_clip s ty content tag1 t1).2.1
    ∧ (add_clip (add_clip s ty content tag1 t1).1 ty content tag2 t2).2.2
        = false
    ∧ hashCount
        (add_clip (add_clip s ty content tag1 t1).1 ty content tag2 t2).1.clips
        (compute_hash content) = 1
    ∧ (∀ c ∈ (add_clip (add_clip s ty content tag1 t1).1 ty content
          tag2 t2).1.clips,
        c.hash = compute_hash content → c.updated_at = t2)
    ∧ (findByHash s.clips (compute_hash content) = none →
        (add_clip s ty content tag1 t1).2.2 = true ∧
        ∃ c ∈ (add_clip s ty content tag1 t1).1.clips,
          c.id = (add_clip s ty content tag1 t1).2.1 ∧
          c.is_pinned = false ∧ c.pin_order = 0 ∧
          c.created_at = t1 ∧ c.updated_at = t1) := by
  cases hfind : findByHash s.clips (compute_hash content) with
  | some e =>
      have he : e ∈ s.clips := List.mem_of_find?_eq_some hfind
      have hhe : e.hash = compute_hash content := hash_of_find hfind
      rw [add_clip_dup ty content tag1 t1 hfind]
      have hfind2 : findByHash
          (updateClip s.clips e.id (touchUpdated t1))
          (compute_hash content)
          = some (whereId e.id (touchUpdated t1) e) := by
        rw [findByHash_updateClip_touch, hfind]
        rfl
      rw [add_clip_dup ty content tag2 t2 (by simpa using hfind2)]
      refine ⟨by simp [whereId, touchUpdated], rfl, ?_, ?_, ?_⟩
      · simp only [markDirty_clips]
        rw [hashCount_updateClip_touch, hashCount_updateClip_touch]
        exact le_antisymm huniq (hashCount_pos_of_find hfind)
      · intro c hc hch
        simp only [markDirty_clips] at hc
        rw [updateClip_eq_map, updateClip_eq_map, List.map_map] at hc
        obtain ⟨c0, hc0, rfl⟩ := List.mem_map.mp hc
        have hc0h : c0.hash = compute_hash content := by
          rw [Function.comp_apply, whereId_touch_hash,
            whereId_touch_hash] at hch
          exact hch
        have hc0e : c0 = e :=
          eq_of_hashCount_le_one huniq hc0 he hc0h hhe
        subst hc0e
        simp [Function.comp, whereId, touchUpdated]
      · intro hnone
        simp at hnone
  | none =>
      rw [add_clip_new ty content tag1 t1 hfind]
      have hzero : ∀ c ∈ s.clips, ¬ c.hash = compute_hash content := by
        intro c hc
        have := List.find?_eq_none.mp hfind c hc
        simpa using this
      have hfind2 : findByHash
          (s.clips ++ [newRow s.next_id ty content tag1 t1])
          (compute_hash content)
          = some (newRow s.next_id ty content tag1 t1) := by
        unfold findByHash at hfind ⊢
        rw [List.find?_append, hfind]
        simp [newRow]
      rw [add_clip_dup ty content tag2 t2 (by simpa using hfind2)]
      refine ⟨by simp [newRow], rfl, ?_, ?_, ?_⟩
      · simp only [markDirty_clips]
        rw [hashCount_updateClip_touch]
        unfold hashCount
        rw [List.filter_append]
        have h1 : s.clips.filter
            (fun c => decide (c.hash = compute_hash content)) = [] := by
          rw [List.filter_eq_nil_iff]
          intro c hc
          simp [hzero c hc]
        rw [h1]
        simp [newRow]
      · intro c hc hch
        simp only [markDirty_clips] at hc
        rw [updateClip_eq_map, List.mem_map] at hc
        obtain ⟨c0, hc0, rfl⟩ := hc
        rw [whereId_touch_hash] at hch
        rcases List.mem_append.mp hc0 with hmem | hmem
        · exact absurd hch (hzero c0 hmem)
        · simp only [List.mem_singleton] at hmem
          subst hmem
          simp [whereId, newRow, touchUpdated]
      · intro _
        refine ⟨rfl, newRow s.next_id ty content tag1 t1, ?_, rfl, rfl,
          rfl, rfl, rfl⟩
        simp

/-- Witness for C1 at a concrete input. -/
theorem addClip_dedup_witness :
    (add_clip (add_clip initialState "text" "hello" "" 5).1
        "text" "hello" "" 7).2.1
      = (add_clip initialState "text" "hello" "" 5).2.1
    ∧ (add_clip (add_clip initialState "text" "hello" "" 5).1
        "text" "hello" "" 7).2.2 = false
    ∧ hashCount
        (add_clip (add_clip initialState "text" "hello" "" 5).1
          "text" "hello" "" 7).1.clips
        (compute_hash "hello") = 1
    ∧ (∀ c ∈ (add_clip (add_clip initialState "text" "hello" "" 5).1
          "text" "hello" "" 7).1.clips,
        c.hash = compute_hash "hello" → c.updated_at = 7)
    ∧ (findByHash initialState.clips (compute_hash "hello") = none →
        (add_clip initialState "text" "hello" "" 5).2.2 = true ∧
        ∃ c ∈ (add_clip initialState "text" "hello" "" 5).1.clips,
          c.id = (add_clip initialState "text" "hello" "" 5).2.1 ∧
          c.is_pinned = false ∧ c.pin_order = 0 ∧
          c.created_at = 5 ∧ c.updated_at = 5) :=
  addClip_dedup initialState "text" "hello" "" "" 5 7 (by decide)

/-- C2: `import_clips` does silently skip hash collisions, but its return
value counts every input record, not the records actually inserted: a
second import of the same single record changes nothing in the store yet
returns 1, where the specification requires 0. -/
theorem importClips_second_call_count :
    (import_clips initialState [textRecord "a"] 0).2 = 1
    ∧ (import_clips (import_clips initialState [textRecord "a"] 0).1
        [textRecord "a"] 0).2 = 1
    ∧ (import_clips (import_clips initialState [textRecord "a"] 0).1
          [textRecord "a"] 0).1.clips
        = (import_clips initialState [textRecord "a"] 0).1.clips := by
  decide

/-- C4: on the legacy file `pinned: ["a","b"], history: []`, the records
prepared by `import_legacy_json` carry `is_pinned = True`, type `text`,
empty tag and descending pin orders 2 and 1 as the claim states, but the
rows `import_clips` actually inserts both end up with `pin_order = 0`,
because its `INSERT` omits the `pin_order` column. -/
theorem legacy_pinOrder_dropped :
    (import_legacy_json [.str "a", .str "b"] [] 0).map ClipRecord.pin_order
      = [some 2, some 1]
    ∧ (import_legacy_json [.str "a", .str "b"] [] 0).map ClipRecord.is_pinned
      = [true, true]
    ∧ (import_legacy_json [.str "a", .str "b"] [] 0).map ClipRecord.rtype
      = [some "text", some "text"]
    ∧ (import_legacy_json [.str "a", .str "b"] [] 0).map ClipRecord.tag
      = [some "", some ""]
    ∧ ((import_clips initialState
          (import_legacy_json [.str "a", .str "b"] [] 0) 5).1.clips.map
        (fun c => (c.content, c.is_pinned, c.pin_order)))
      = [("a", true, 0), ("b", true, 0)] := by
  decide

/-- C7 (counterexample): `import_clips` is a mutating operation (here it
inserts a row) yet never marks the store dirty nor invokes the registered
change notification. -/
theorem importClips_no_notify :
    (import_clips initialState [textRecord "b"] 0).1.clips ≠ []
    ∧ (import_clips initialState [textRecord "b"] 0).1.notify_count = 0
    ∧ (import_clips initialState [textRecord "b"] 0).1.need_backup
        = false := by
  decide

theorem importOne_notify (t : Int) (acc : StoreState × Nat)
    (r : ClipRecord) :
    (importOne t acc r).1.notify_count = acc.1.notify_count
    ∧ (importOne t acc r).1.need_backup = acc.1.need_backup := by
  simp only [importOne]
  split <;> exact ⟨rfl, rfl⟩

theorem foldl_importOne_notify (t : Int) (recs : List ClipRecord) :
    ∀ acc : StoreState × Nat,
      (recs.foldl (importOne t) acc).1.notify_count = acc.1.notify_count
      ∧ (recs.foldl (importOne t) acc).1.need_backup
          = acc.1.need_backup := by
  induction recs with
  | nil => exact fun acc => ⟨rfl, rfl⟩
  | cons r rest ih =>
      intro acc
      rw [List.foldl_cons]
      exact ⟨by rw [(ih (importOne t acc r)).1, (importOne_notify t acc r).1],
        by rw [(ih (importOne t acc r)).2, (importOne_notify t acc r).2]⟩

/-- C7 (amended): `add_clip`, `pin_clip`, `unpin_clip`, `delete_clip`,
`update_tag`, `update_group`, `clear_history` and `clear_pinned` mark the
store dirty and invoke the registered change notification exactly once per
call; `move_clip` does so exactly when it returns True (it returns False
without notifying when the clip is not found); `import_clips` never marks
the store dirty and never notifies. -/
theorem mutators_notify_once (s : StoreState)
    (ty content tag gname : String) (cid : Nat) (d t : Int) (pb : Bool)
    (recs : List ClipRecord) :
    (add_clip s ty content tag t).1.notify_count = s.notify_count + 1
    ∧ (add_clip s ty content tag t).1.need_backup = true
    ∧ (pin_clip s cid t).1.notify_count = s.notify_count + 1
    ∧ (pin_clip s cid t).1.need_backup = true
    ∧ (unpin_clip s cid t).1.notify_count = s.notify_count + 1
    ∧ (unpin_clip s cid t).1.need_backup = true
    ∧ (delete_clip s cid).1.notify_count = s.notify_count + 1
    ∧ (delete_clip s cid).1.need_backup = true
    ∧ (update_tag s cid tag).1.notify_count = s.notify_count + 1
    ∧ (update_tag s cid tag).1.need_backup = true
    ∧ (update_group s cid gname).1.notify_count = s.notify_count + 1
    ∧ (update_group s cid gname).1.need_backup = true
    ∧ (clear_history s).1.notify_count = s.notify_count + 1
    ∧ (clear_history s).1.need_backup = true
    ∧ (clear_pinned s).1.notify_count = s.notify_count + 1
    ∧ (clear_pinned s).1.need_backup = true
    ∧ (move_clip s cid d pb t).1.notify_count
        = s.notify_count + ((move_clip s cid d pb t).2).toNat
    ∧ (import_clips s recs t).1.notify_count = s.notify_count
    ∧ (import_clips s recs t).1.need_backup = s.need_backup := by
  refine ⟨?_, ?_, rfl, rfl, rfl, rfl, rfl, rfl, rfl, rfl, rfl, rfl, rfl,
    rfl, rfl, rfl, ?_, (foldl_importOne_notify t recs (s, 0)).1,
    (foldl_importOne_notify t recs (s, 0)).2⟩
  · cases hf : findByHash s.clips (compute_hash content) with
    | some e => rw [add_clip_dup ty content tag t hf]; rfl
    | none => rw [add_clip_new ty content tag t hf]; rfl
  · cases hf : findByHash s.clips (compute_hash content) with
    | some e => rw [add_clip_dup ty content tag t hf]; rfl
    | none => rw [add_clip_new ty content tag t hf]; rfl
  · cases pb with
    | true =>
        simp only [move_clip, if_true]
        unfold move_pinned
        cases hf : findClip s.clips cid with
        | none => simp
        | some c =>
            simp only []
            cases ht : s.clips.find?
                (fun x => x.is_pinned
                  && decide (x.pin_order = c.pin_order + d)) with
            | none => simp [ht]
            | some tg => simp [ht]
    | false =>
        simp only [move_clip, Bool.false_eq_true, if_false, move_history]
        split
        · split <;> simp
        · simp

theorem fireTimes_coalesce (ts : List Nat) (l : Nat)
    (hl : ts.getLast? = some l)
    (hgap : ts.Chain' (fun a b => b < a + 30)) :
    fireTimes ts = [l + 30] := by
  induction ts with
  | nil => simp at hl
  | cons t rest ih =>
      cases rest with
      | nil =>
          simp only [List.getLast?_singleton, Option.some.injEq] at hl
          subst hl
          rfl
      | cons t' rest' =>
          have hlt : t' < t + 30 := (List.chain'_cons.mp hgap).1
          have hrec := ih (by rw [← List.getLast?_cons_cons (a := t)]; exact hl)
            (List.chain'_cons.mp hgap).2
          simp [fireTimes, hlt, hrec]

/-- C9: any nonempty burst of `schedule` calls in which consecutive calls
are spaced less than the 30-second debounce interval apart produces
exactly one invocation of the backup callback, and it fires 30 seconds
after the last call of the burst. -/
theorem debounce_coalesce (ts : List Nat) (l : Nat)
    (hl : ts.getLast? = some l)
    (hgap : ts.Chain' (fun a b => b < a + 30)) :
    fireTimes ts = [l + 30] ∧ (fireTimes ts).length = 1 :=
  ⟨fireTimes_coalesce ts l hl hgap,
   by rw [fireTimes_coalesce ts l hl hgap]; rfl⟩

/-- C3 (counterexample): changing the `version` field of a document
written by `create_backup` — a one-character change to the serialized
document, outside the `checksum` field — leaves `validate_backup`
succeeding, because the checksum covers only the serialized `clips`
list. -/
theorem checksum_scope_cex :
    docJson { create_backup_doc [] 0 with version := some 2 }
        ≠ docJson (create_backup_doc [] 0)
    ∧ (docJson { create_backup_doc [] 0 with version := some 2 }).length
        = (docJson (create_backup_doc [] 0)).length
    ∧ (((docJson { create_backup_doc [] 0 with version := some 2 }).toList.zip
          (docJson (create_backup_doc [] 0)).toList).countP
        (fun p => p.1 ≠ p.2)) = 1
    ∧ ({ create_backup_doc [] 0 with version := some 2 } : RawDoc).checksum
        = (create_backup_doc [] 0).checksum
    ∧ validate_backup { create_backup_doc [] 0 with version := some 2 }
        = (true, some []) := by
  refine ⟨by decide, by decide, by decide, rfl, rfl⟩

/-- C3 (amended): validating the document produced by `create_backup`
succeeds and returns the input collection; the checksum covers only the
canonical serialization of the `clips` list, so a change to the clips
payload that changes its digest makes validation fail, while changes
confined to the `version`, `created_at` or `clip_count` fields leave
validation succeeding. -/
theorem backup_roundtrip (clips clips' : List Clip) (now : Int)
    (v : Option Nat) (ca : Option Int) (cc : Option Nat)
    (hdiff : compute_checksum (clipsJson clips')
        ≠ compute_checksum (clipsJson clips)) :
    validate_backup (create_backup_doc clips now) = (true, some clips)
    ∧ validate_backup
        { create_backup_doc clips now with clips := some clips' }
        = (false, none)
    ∧ validate_backup
        { create_backup_doc clips now with
            version := v, created_at := ca, clip_count := cc }
        = (true, some clips) := by
  refine ⟨by simp [validate_backup, create_backup_doc], ?_,
    by simp [validate_backup, create_backup_doc]⟩
  simp only [validate_backup, create_backup_doc]
  rw [if_neg (fun h => hdiff h.symm)]

/-- Witness for C3 at a concrete collection and a concrete clips edit. -/
theorem backup_roundtrip_witness :
    validate_backup (create_backup_doc [] 0) = (true, some [])
    ∧ validate_backup
        { create_backup_doc [] 0 with
            clips := some [newRow 1 "text" "x" "" 0] }
        = (false, none)
    ∧ validate_backup
        { create_backup_doc [] 0 with
            version := some 9, created_at := some 1, clip_count := some 7 }
        = (true, some []) :=
  backup_roundtrip [] [newRow 1 "text" "x" "" 0] 0 (some 9) (some 1)
    (some 7) (by decide)

/-- C5 (counterexample): a checksum-correct v2 (`history`/`pinned`)
document, exactly as `backup.BackupManager._do_backup` writes it, is
accepted by that class's validator but rejected by the live
`backup_manager.validate_backup`; conversely the v1 (`clips`) document
written by `create_backup` is rejected by `backup.BackupManager`'s
validator — no single validator accepts both layouts. -/
theorem validate_layout_cex :
    bk_validate_backup (bk_do_backup_doc [] [] 0)
        = (true, some (bk_do_backup_doc [] [] 0))
    ∧ validate_backup (bk_do_backup_doc [] [] 0) = (false, none)
    ∧ bk_validate_backup (create_backup_doc [] 0) = (false, none) := by
  refine ⟨by decide, rfl, by decide⟩

/-- C5 (amended): `backup_manager.validate_backup` accepts exactly the v1
layout (`clips` plus `checksum`, digest over the clips list), and
`backup.BackupManager.validate_backup` accepts exactly documents carrying
`history` or `pinned` (digest over the whole document minus `checksum`,
checked only when a `checksum` key is present); each reports every
failure — missing fields or checksum mismatch alike — as the bare pair
`(False, None)`. -/
theorem validate_layouts (d : RawDoc) (hist pinn : List Clip) (now : Int) :
    (d.clips = none ∨ d.checksum = none →
      validate_backup d = (false, none))
    ∧ (∀ clips stored, d.clips = some clips → d.checksum = some stored →
        stored ≠ compute_checksum (clipsJson clips) →
        validate_backup d = (false, none))
    ∧ (∀ clips, validate_backup (create_backup_doc clips now)
        = (true, some clips))
    ∧ (d.history = none → d.pinned = none →
        bk_validate_backup d = (false, none))
    ∧ (∀ stored, (d.history ≠ none ∨ d.pinned ≠ none) →
        d.checksum = some stored →
        stored ≠ compute_checksum (docJsonNoChecksum d) →
        bk_validate_backup d = (false, none))
    ∧ bk_validate_backup (bk_do_backup_doc hist pinn now)
        = (true, some (bk_do_backup_doc hist pinn now)) := by
  refine ⟨?_, ?_, ?_, ?_, ?_, ?_⟩
  · intro h
    rcases h with h | h
    · cases hc : d.checksum <;> simp [validate_backup, h, hc]
    · cases hc : d.clips <;> simp [validate_backup, h, hc]
  · intro clips stored h1 h2 hne
    simp [validate_backup, h1, h2, hne]
  · intro clips
    simp [validate_backup, create_backup_doc]
  · intro h1 h2
    simp [bk_validate_backup, h1, h2]
  · intro stored hor h2 hne
    have hcond : ¬ (d.history = none ∧ d.pinned = none) := by
      rcases hor with h | h <;> exact fun hc => h (by tauto)
    simp [bk_validate_backup, hcond, h2, hne]
  · simp only [bk_validate_backup, bk_do_backup_doc]
    rw [if_neg (by simp)]
    exact if_pos rfl

/-- Witness for C9 at a concrete burst of three notifications. -/
theorem debounce_coalesce_witness :
    fireTimes [0, 10, 20] = [50] ∧ (fireTimes [0, 10, 20]).length = 1 :=
  debounce_coalesce [0, 10, 20] 20 (by decide)
    (by norm_num [List.chain'_cons])

theorem insertDesc_top {t : Nat} {l : List Nat} (h : ∀ x ∈ l, x ≤ t) :
    insertDesc t l = t :: l := by
  cases l with
  | nil => rfl
  | cons x xs =>
      unfold insertDesc
      rw [if_pos (h x (by simp))]

theorem sortDesc_sorted {l : List Nat}
    (h : l.Pairwise (fun a b => b ≤ a)) : sortDesc l = l := by
  induction l with
  | nil => rfl
  | cons x xs ih =>
      have hx : ∀ y ∈ xs, y ≤ x := fun y hy =>
        (List.pairwise_cons.mp h).1 y hy
      have hxs := ih (List.pairwise_cons.mp h).2
      show insertDesc x (sortDesc xs) = x :: xs
      rw [hxs, insertDesc_top hx]

/-- C10: after writing any ascending sequence of snapshot timestamps into
an empty directory, the directory holds exactly the newest
`MAX_BACKUPS`-sized prefix (newest first) of the written files. -/
theorem write_backups_asc (ts : List Nat)
    (hsorted : ts.Pairwise (· < ·)) :
    write_backups ts = ts.reverse.take MAX_BACKUPS := by
  induction ts using List.reverseRecOn with
  | nil => rfl
  | append_singleton ts' t ih =>
      have hpw := List.pairwise_append.mp hsorted
      have hall : ∀ x ∈ ts', x < t := fun x hx => hpw.2.2 x hx t (by simp)
      have hrec := ih hpw.1
      rw [write_backups, List.foldl_append, List.foldl_cons, List.foldl_nil,
        ← write_backups, hrec]
      have hnotmem : t ∉ ts'.reverse.take MAX_BACKUPS := by
        intro hmem
        have ht' : t ∈ ts' := by
          have := List.mem_of_mem_take hmem
          simpa using this
        exact lt_irrefl t (hall t ht')
      rw [create_backup_fs, if_neg hnotmem, rotate_backups]
      have hdesc : (ts'.reverse.take MAX_BACKUPS).Pairwise
          (fun a b => b ≤ a) := by
        have h1 : ts'.reverse.Pairwise (fun a b => b ≤ a) := by
          rw [List.pairwise_reverse]
          exact hpw.1.imp le_of_lt
        exact h1.sublist (List.take_sublist _ _)
      have hle : ∀ x ∈ ts'.reverse.take MAX_BACKUPS, x ≤ t := by
        intro x hx
        have hx' : x ∈ ts' := by
          have := List.mem_of_mem_take hx
          simpa using this
        exact le_of_lt (hall x hx')
      rw [show sortDesc (t :: ts'.reverse.take MAX_BACKUPS)
            = insertDesc t (sortDesc (ts'.reverse.take MAX_BACKUPS))
          from rfl,
        sortDesc_sorted hdesc, insertDesc_top hle, List.reverse_append]
      simp only [List.reverse_singleton, List.singleton_append, MAX_BACKUPS]
      rw [show (10 : Nat) = 9 + 1 from rfl, List.take_succ_cons,
        List.take_succ_cons, List.take_take]
      norm_num

/-- C10 (rotation bound): after writing `MAX_BACKUPS + k` snapshots
(k > 0) at strictly increasing timestamps into an empty backup directory,
exactly `MAX_BACKUPS` files remain, and they are the `MAX_BACKUPS` most
recently created ones (newest first). -/
theorem rotation_bound (ts : List Nat) (k : Nat) (hk : 0 < k)
    (hlen : ts.length = MAX_BACKUPS + k)
    (hsorted : ts.Pairwise (· < ·)) :
    write_backups ts = ts.reverse.take MAX_BACKUPS
    ∧ (write_backups ts).length = MAX_BACKUPS := by
  have h := write_backups_asc ts hsorted
  refine ⟨h, ?_⟩
  rw [h, List.length_take, List.length_reverse, hlen]
  omega

/-- Witness for C10: eleven writes leave exactly the ten newest files. -/
theorem rotation_bound_witness :
    write_backups [1, 2, 3, 4, 5, 6, 7, 8, 9, 10, 11]
      = [1, 2, 3, 4, 5, 6, 7, 8, 9, 10, 11].reverse.take MAX_BACKUPS
    ∧ (write_backups [1, 2, 3, 4, 5, 6, 7, 8, 9, 10, 11]).length
        = MAX_BACKUPS :=
  rotation_bound [1, 2, 3, 4, 5, 6, 7, 8, 9, 10, 11] 1 (by decide)
    (by decide) (by decide)

@[simp] theorem setOrder_id (o : Int) (c : Clip) :
    (setOrder o c).id = c.id := rfl

@[simp] theorem setOrder_pinned (o : Int) (c : Clip) :
    (setOrder o c).is_pinned = c.is_pinned := rfl

@[simp] theorem setOrder_order (o : Int) (c : Clip) :
    (setOrder o c).pin_order = o := rfl

theorem whereId_id (cid : Nat) (f : Clip → Clip)
    (hf : ∀ c, (f c).id = c.id) (c : Clip) :
    (whereId cid f c).id = c.id := by
  unfold whereId
  split <;> simp [hf]

theorem findClip_updateClip (cs : List Clip) (cid' : Nat) (f : Clip → Clip)
    (hf : ∀ c, (f c).id = c.id) (i : Nat) :
    findClip (updateClip cs cid' f) i =
      (findClip cs i).map (whereId cid' f) := by
  have hp : ((fun c : Clip => decide (c.id = i)) ∘ whereId cid' f)
      = (fun c : Clip => decide (c.id = i)) := by
    funext c
    simp [Function.comp, whereId_id cid' f hf c]
  unfold findClip
  rw [updateClip_eq_map, List.find?_map, hp]

theorem map_self_of_mem {l : List Clip} {f : Clip → Clip}
    (h : ∀ a ∈ l, f a = a) : l.map f = l := by
  conv_rhs => rw [← List.map_id l]
  exact List.map_congr_left h

theorem find?_eq_some_unique {p : Clip → Bool} {l : List Clip} {a : Clip}
    (ha : a ∈ l) (hpa : p a = true)
    (huniq : ∀ x ∈ l, p x = true → x = a) : l.find? p = some a := by
  induction l with
  | nil => simp at ha
  | cons x xs ih =>
      by_cases hpx : p x = true
      · rw [List.find?_cons_of_pos _ hpx, huniq x (by simp) hpx]
      · rw [List.find?_cons_of_neg _ hpx]
        rcases List.mem_cons.mp ha with h | h
        · exact absurd (h ▸ hpa) hpx
        · exact ih h (fun y hy hpy => huniq y (List.mem_cons_of_mem x hy) hpy)

theorem eq_of_id_nodup {cs : List Clip}
    (hnd : (cs.map Clip.id).Nodup) {a b : Clip} (ha : a ∈ cs) (hb : b ∈ cs)
    (hab : a.id = b.id) : a = b :=
  List.inj_on_of_nodup_map hnd ha hb hab

theorem eq_of_pinnedOrders_nodup {cs : List Clip}
    (hnd : (pinnedOrders cs).Nodup) {a b : Clip} (ha : a ∈ cs) (hb : b ∈ cs)
    (hap : a.is_pinned = true) (hbp : b.is_pinned = true)
    (hab : a.pin_order = b.pin_order) : a = b := by
  have ha' : a ∈ cs.filter (fun c => c.is_pinned) :=
    List.mem_filter.mpr ⟨ha, hap⟩
  have hb' : b ∈ cs.filter (fun c => c.is_pinned) :=
    List.mem_filter.mpr ⟨hb, hbp⟩
  exact List.inj_on_of_nodup_map hnd ha' hb' hab

theorem move_pinned_boundary {s : StoreState} {cid : Nat} {d : Int}
    {c : Clip} (hc : findClip s.clips cid = some c)
    (hnone : s.clips.find?
      (fun x => x.is_pinned && decide (x.pin_order = c.pin_order + d))
      = none) :
    move_pinned s cid d = (markDirty s, true) := by
  simp only [move_pinned, hc, hnone]

theorem move_pinned_target {s : StoreState} {cid : Nat} {d : Int}
    {c tg : Clip} (hc : findClip s.clips cid = some c)
    (htg : s.clips.find?
      (fun x => x.is_pinned && decide (x.pin_order = c.pin_order + d))
      = some tg) :
    move_pinned s cid d =
      (markDirty { s with
         clips :=
           updateClip
             (updateClip
               (updateClip s.clips cid (setOrder (c.pin_order + d)))
               tg.id (setOrder c.pin_order))
             tg.id (setOrder c.pin_order) }, true) := by
  simp only [move_pinned, hc, htg]

theorem findClip_updateClip_setOrder (cs : List Clip) (cid' : Nat)
    (o : Int) (i : Nat) :
    findClip (updateClip cs cid' (setOrder o)) i =
      (findClip cs i).map (whereId cid' (setOrder o)) :=
  findClip_updateClip cs cid' (setOrder o) (fun _ => rfl) i

/-- C8: for a pinned clip, `move_clip(id, d, pinned=True)` looks up the
clip currently holding `pin_order + d`; at the boundary (no such clip) it
leaves the table unchanged while still returning True, and otherwise it
swaps the two clips' `pin_order` values, so that the opposite move
restores the table exactly — `move(id, -1)` and `move(id, +1)` are
inverses whenever no boundary is crossed.  Hypotheses: unique row ids and
unique pin orders among pinned rows (the SQLite primary key and the
pin-order invariant), the moved clip is pinned, and a nonzero
direction. -/
theorem movePinned_swap_inverse (s : StoreState) (cid : Nat)
    (d t t2 : Int) (c : Clip)
    (hidnd : (s.clips.map Clip.id).Nodup)
    (hpond : (pinnedOrders s.clips).Nodup)
    (hc : findClip s.clips cid = some c)
    (hcp : c.is_pinned = true)
    (hd : d ≠ 0) :
    (s.clips.find?
        (fun x => x.is_pinned && decide (x.pin_order = c.pin_order + d))
        = none →
      (move_clip s cid d true t).1.clips = s.clips
      ∧ (move_clip s cid d true t).2 = true)
    ∧ (∀ tg, s.clips.find?
        (fun x => x.is_pinned && decide (x.pin_order = c.pin_order + d))
        = some tg →
      findClip (move_clip s cid d true t).1.clips cid
          = some (setOrder (c.pin_order + d) c)
      ∧ findClip (move_clip s cid d true t).1.clips tg.id
          = some (setOrder c.pin_order tg)
      ∧ (move_clip (move_clip s cid d true t).1 cid (-d) true t2).1.clips
          = s.clips) := by
  have hcmem : c ∈ s.clips := List.mem_of_find?_eq_some hc
  have hcid : c.id = cid := by simpa using List.find?_some hc
  constructor
  · intro hnone
    simp only [move_clip, if_true]
    rw [move_pinned_boundary hc hnone]
    exact ⟨rfl, rfl⟩
  · intro tg htg
    have htgmem : tg ∈ s.clips := List.mem_of_find?_eq_some htg
    have htgfact := List.find?_some htg
    rw [Bool.and_eq_true, decide_eq_true_eq] at htgfact
    obtain ⟨htgp, htgo⟩ := htgfact
    have htgne : tg.id ≠ cid := by
      intro he
      have heq : tg = c :=
        eq_of_id_nodup hidnd htgmem hcmem (by rw [he, hcid])
      rw [heq] at htgo
      omega
    have hcne : c.id ≠ tg.id := by
      rw [hcid]
      exact fun h => htgne h.symm
    have hne2 : ¬ (cid = tg.id) := fun h => htgne h.symm
    simp only [move_clip, if_true]
    rw [move_pinned_target hc htg]
    simp only [markDirty_clips]
    have ha : findClip
        (updateClip
          (updateClip
            (updateClip s.clips cid (setOrder (c.pin_order + d)))
            tg.id (setOrder c.pin_order))
          tg.id (setOrder c.pin_order)) cid
        = some (setOrder (c.pin_order + d) c) := by
      rw [findClip_updateClip_setOrder, findClip_updateClip_setOrder,
        findClip_updateClip_setOrder, hc]
      simp [whereId, hcid, hcne, hne2, setOrder]
    have hftg : findClip s.clips tg.id = some tg := by
      apply find?_eq_some_unique htgmem (by simp)
      intro x hx hpx
      exact eq_of_id_nodup hidnd hx htgmem (by simpa using hpx)
    have hb : findClip
        (updateClip
          (updateClip
            (updateClip s.clips cid (setOrder (c.pin_order + d)))
            tg.id (setOrder c.pin_order))
          tg.id (setOrder c.pin_order)) tg.id
        = some (setOrder c.pin_order tg) := by
      rw [findClip_updateClip_setOrder, findClip_updateClip_setOrder,
        findClip_updateClip_setOrder, hftg]
      simp [whereId, htgne, setOrder]
    refine ⟨ha, hb, ?_⟩
    have hcs3 :
        (updateClip
          (updateClip
            (updateClip s.clips cid (setOrder (c.pin_order + d)))
            tg.id (setOrder c.pin_order))
          tg.id (setOrder c.pin_order))
        = s.clips.map (fun y =>
            whereId tg.id (setOrder c.pin_order)
              (whereId tg.id (setOrder c.pin_order)
                (whereId cid (setOrder (c.pin_order + d)) y))) := by
      rw [updateClip_eq_map, updateClip_eq_map, updateClip_eq_map,
        List.map_map, List.map_map]
      rfl
    have hpred : (fun x : Clip => x.is_pinned &&
          decide (x.pin_order
            = (setOrder (c.pin_order + d) c).pin_order + -d))
        = (fun x : Clip => x.is_pinned &&
            decide (x.pin_order = c.pin_order)) := by
      funext x
      have hor : (setOrder (c.pin_order + d) c).pin_order + -d
          = c.pin_order := by
        simp
      rw [hor]
    have htg2 :
        (updateClip
          (updateClip
            (updateClip s.clips cid (setOrder (c.pin_order + d)))
            tg.id (setOrder c.pin_order))
          tg.id (setOrder c.pin_order)).find?
          (fun x => x.is_pinned &&
            decide (x.pin_order
              = (setOrder (c.pin_order + d) c).pin_order + -d))
        = some (setOrder c.pin_order tg) := by
      rw [hpred]
      apply find?_eq_some_unique (List.mem_of_find?_eq_some hb)
        (by simp [htgp])
      intro x hx hpx
      rw [hcs3] at hx
      obtain ⟨y, hy, rfl⟩ := List.mem_map.mp hx
      by_cases h1 : y.id = cid
      · have hyc : y = c :=
          eq_of_id_nodup hidnd hy hcmem (by rw [h1, hcid])
        subst hyc
        simp [whereId, hcid, hcne, hne2, setOrder] at hpx
        omega
      · by_cases h2 : y.id = tg.id
        · have hyt : y = tg := eq_of_id_nodup hidnd hy htgmem h2
          subst hyt
          simp [whereId, h1, setOrder]
        · simp only [whereId, h1, h2, if_neg, if_false] at hpx ⊢
          rw [Bool.and_eq_true, decide_eq_true_eq] at hpx
          have hyc : y = c :=
            eq_of_pinnedOrders_nodup hpond hy hcmem hpx.1 hcp hpx.2
          exact absurd (by rw [hyc, hcid]) h1
    rw [move_pinned_target ha htg2]
    simp only [markDirty_clips]
    rw [hcs3, updateClip_eq_map, updateClip_eq_map, updateClip_eq_map]
    simp only [List.map_map]
    apply map_self_of_mem
    intro y hy
    simp only [Function.comp_apply]
    by_cases h1 : y.id = cid
    · have hyc : y = c :=
        eq_of_id_nodup hidnd hy hcmem (by rw [h1, hcid])
      rw [hyc]
      simp [whereId, setOrder, hcid, hcne, hne2, add_neg_cancel_right]
      rw [← hcid]
    · by_cases h2 : y.id = tg.id
      · have hyt : y = tg := eq_of_id_nodup hidnd hy htgmem h2
        rw [hyt]
        simp [whereId, setOrder, htgne, ← htgo]
      · simp [whereId, setOrder, h1, h2]

/-- Witness for C8: in a store with two pinned clips at orders 1 and 2,
moving clip 1 up and then down restores the table. -/
theorem movePinned_swap_inverse_witness :
    (twoPinnedState.clips.find?
        (fun x => x.is_pinned &&
          decide (x.pin_order = (pinnedClip 1 "a" 1).pin_order + 1))
        = none →
      (move_clip twoPinnedState 1 1 true 5).1.clips = twoPinnedState.clips
      ∧ (move_clip twoPinnedState 1 1 true 5).2 = true)
    ∧ (∀ tg, twoPinnedState.clips.find?
        (fun x => x.is_pinned &&
          decide (x.pin_order = (pinnedClip 1 "a" 1).pin_order + 1))
        = some tg →
      findClip (move_clip twoPinnedState 1 1 true 5).1.clips 1
          = some (setOrder ((pinnedClip 1 "a" 1).pin_order + 1)
              (pinnedClip 1 "a" 1))
      ∧ findClip (move_clip twoPinnedState 1 1 true 5).1.clips tg.id
          = some (setOrder (pinnedClip 1 "a" 1).pin_order tg)
      ∧ (move_clip (move_clip twoPinnedState 1 1 true 5).1 1 (-1) true
          6).1.clips = twoPinnedState.clips) :=
  movePinned_swap_inverse twoPinnedState 1 1 5 6 (pinnedClip 1 "a" 1)
    (by decide) (by decide) (by decide) (by decide) (by decide)

theorem whereId_pinned (cid : Nat) (f : Clip → Clip)
    (hf : ∀ c, (f c).is_pinned = c.is_pinned) (c : Clip) :
    (whereId cid f c).is_pinned = c.is_pinned := by
  unfold whereId
  split <;> simp [hf]

theorem whereId_order (cid : Nat) (f : Clip → Clip)
    (hf : ∀ c, (f c).pin_order = c.pin_order) (c : Clip) :
    (whereId cid f c).pin_order = c.pin_order := by
  unfold whereId
  split <;> simp [hf]

theorem map_clipId_map (g : Clip → Clip) (hid : ∀ c, (g c).id = c.id)
    (cs : List Clip) : (cs.map g).map Clip.id = cs.map Clip.id := by
  rw [List.map_map]
  have h : (Clip.id ∘ g) = Clip.id := funext fun c => hid c
  rw [h]

theorem pinnedOrders_map (g : Clip → Clip)
    (h1 : ∀ c, (g c).is_pinned = c.is_pinned)
    (h2 : ∀ c, (g c).pin_order = c.pin_order) (cs : List Clip) :
    pinnedOrders (cs.map g) = pinnedOrders cs := by
  unfold pinnedOrders
  rw [List.filter_map]
  have hp : ((fun c : Clip => c.is_pinned) ∘ g)
      = (fun c : Clip => c.is_pinned) := funext fun c => h1 c
  rw [hp, List.map_map]
  have ho : ((fun c : Clip => c.pin_order) ∘ g)
      = (fun c : Clip => c.pin_order) := funext fun c => h2 c
  rw [ho]

theorem pinInvL_map_shape {cs : List Clip} {nid : Nat} (h : PinInvL cs nid)
    (g : Clip → Clip) (hid : ∀ c, (g c).id = c.id)
    (hpin : ∀ c, (g c).is_pinned = c.is_pinned)
    (hord : ∀ c, (g c).pin_order = c.pin_order) :
    PinInvL (cs.map g) nid := by
  obtain ⟨h1, h2, h3, h4, h5⟩ := h
  refine ⟨?_, ?_, ?_, ?_, ?_⟩
  · rw [map_clipId_map g hid]
    exact h1
  · intro c hc
    obtain ⟨y, hy, rfl⟩ := List.mem_map.mp hc
    rw [hid]
    exact h2 y hy
  · rw [pinnedOrders_map g hpin hord]
    exact h3
  · intro c hc hp
    obtain ⟨y, hy, rfl⟩ := List.mem_map.mp hc
    rw [hord]
    exact h4 y hy (by rw [← hpin]; exact hp)
  · intro c hc hp
    obtain ⟨y, hy, rfl⟩ := List.mem_map.mp hc
    rw [hord]
    exact h5 y hy (by rw [← hpin]; exact hp)

theorem pinInvL_filter {cs : List Clip} {nid : Nat} (h : PinInvL cs nid)
    (q : Clip → Bool) : PinInvL (cs.filter q) nid := by
  obtain ⟨h1, h2, h3, h4, h5⟩ := h
  refine ⟨?_, ?_, ?_, ?_, ?_⟩
  · exact h1.sublist (List.Sublist.map Clip.id (List.filter_sublist cs))
  · intro c hc
    exact h2 c (List.mem_of_mem_filter hc)
  · unfold pinnedOrders
    have hsub : List.Sublist ((cs.filter q).filter (fun c => c.is_pinned))
        (cs.filter (fun c => c.is_pinned)) :=
      List.Sublist.filter _ (List.filter_sublist cs)
    exact h3.sublist (List.Sublist.map _ hsub)
  · intro c hc
    exact h4 c (List.mem_of_mem_filter hc)
  · intro c hc
    exact h5 c (List.mem_of_mem_filter hc)

theorem pinInvL_append_unpinned {cs : List Clip} {nid : Nat}
    (h : PinInvL cs nid) (c : Clip) (hcid : c.id = nid)
    (hcp : c.is_pinned = false) (hco : c.pin_order = 0) :
    PinInvL (cs ++ [c]) (nid + 1) := by
  obtain ⟨h1, h2, h3, h4, h5⟩ := h
  refine ⟨?_, ?_, ?_, ?_, ?_⟩
  · rw [List.map_append, List.nodup_append]
    refine ⟨h1, by simp, ?_⟩
    intro a ha
    obtain ⟨y, hy, rfl⟩ := List.mem_map.mp ha
    simp only [List.map_cons, List.map_nil, List.mem_singleton]
    intro he
    rw [hcid] at he
    exact absurd he (Nat.ne_of_lt (h2 y hy))
  · intro x hx
    rcases List.mem_append.mp hx with hx | hx
    · exact Nat.lt_trans (h2 x hx) (Nat.lt_succ_self nid)
    · simp only [List.mem_singleton] at hx
      subst hx
      rw [hcid]
      exact Nat.lt_succ_self nid
  · unfold pinnedOrders
    rw [List.filter_append]
    have hempty : [c].filter (fun c => c.is_pinned) = [] := by simp [hcp]
    rw [hempty, List.append_nil]
    exact h3
  · intro x hx hp
    rcases List.mem_append.mp hx with hx | hx
    · exact h4 x hx hp
    · simp only [List.mem_singleton] at hx
      subst hx
      rw [hcp] at hp
      cases hp
  · intro x hx hp
    rcases List.mem_append.mp hx with hx | hx
    · exact h5 x hx hp
    · simp only [List.mem_singleton] at hx
      subst hx
      exact hco

theorem other_ids {l1 l2 : List Clip} {c0 : Clip}
    (h : ((l1 ++ c0 :: l2).map Clip.id).Nodup) :
    ∀ x ∈ l1 ++ l2, x.id ≠ c0.id := by
  intro x hx he
  rw [List.map_append, List.map_cons] at h
  have hmid := List.nodup_middle.mp h
  have hnotin := (List.nodup_cons.mp hmid).1
  apply hnotin
  rw [← he]
  rcases List.mem_append.mp hx with hx | hx
  · exact List.mem_append_left _ (List.mem_map_of_mem _ hx)
  · exact List.mem_append_right _ (List.mem_map_of_mem _ hx)

theorem updateClip_split {l1 l2 : List Clip} {c0 : Clip} {cid : Nat}
    (f : Clip → Clip) (hother : ∀ x ∈ l1 ++ l2, x.id ≠ cid)
    (hc0 : c0.id = cid) :
    updateClip (l1 ++ c0 :: l2) cid f = l1 ++ f c0 :: l2 := by
  unfold updateClip
  rw [List.map_append, List.map_cons]
  have h1 : l1.map (fun c => if c.id = cid then f c else c) = l1 :=
    map_self_of_mem
      (fun a ha => if_neg (hother a (List.mem_append_left _ ha)))
  have h2 : l2.map (fun c => if c.id = cid then f c else c) = l2 :=
    map_self_of_mem
      (fun a ha => if_neg (hother a (List.mem_append_right _ ha)))
  rw [h1, h2, if_pos hc0]

theorem updateClip_not_found {cs : List Clip} {cid : Nat}
    (f : Clip → Clip) (h : ∀ x ∈ cs, x.id ≠ cid) :
    updateClip cs cid f = cs :=
  map_self_of_mem (fun a ha => if_neg (h a ha))

theorem init_le_foldl_max (l : List Int) : ∀ b : Int, b ≤ l.foldl max b := by
  induction l with
  | nil => exact fun b => le_refl b
  | cons x xs ih =>
      exact fun b => le_trans (le_max_left b x) (ih (max b x))

theorem le_foldl_max (l : List Int) :
    ∀ (b a : Int), a ∈ l → a ≤ l.foldl max b := by
  induction l with
  | nil =>
      intro b a h
      simp at h
  | cons x xs ih =>
      intro b a h
      rcases List.mem_cons.mp h with rfl | h
      · exact le_trans (le_max_right b a) (init_le_foldl_max xs (max b a))
      · exact ih (max b x) a h

theorem mem_pinnedOrders {cs : List Clip} {o : Int} :
    o ∈ pinnedOrders cs ↔
      ∃ c ∈ cs, c.is_pinned = true ∧ c.pin_order = o := by
  unfold pinnedOrders
  constructor
  · intro h
    obtain ⟨c, hc, rfl⟩ := List.mem_map.mp h
    obtain ⟨hcm, hcp⟩ := List.mem_filter.mp hc
    exact ⟨c, hcm, hcp, rfl⟩
  · rintro ⟨c, hcm, hcp, rfl⟩
    exact List.mem_map_of_mem _ (List.mem_filter.mpr ⟨hcm, hcp⟩)

theorem le_maxPinOrder {cs : List Clip} {o : Int}
    (h : o ∈ pinnedOrders cs) : o ≤ maxPinOrder cs := by
  unfold maxPinOrder
  unfold pinnedOrders at h
  cases hl : (cs.filter (fun c => c.is_pinned)).map (fun c => c.pin_order)
    with
  | nil =>
      rw [hl] at h
      simp at h
  | cons x xs =>
      rw [hl] at h
      rcases List.mem_cons.mp h with rfl | h
      · exact init_le_foldl_max xs o
      · exact le_foldl_max xs x o h

theorem maxPinOrder_nonneg {cs : List Clip}
    (h4 : ∀ c ∈ cs, c.is_pinned = true → 1 ≤ c.pin_order) :
    0 ≤ maxPinOrder cs := by
  unfold maxPinOrder
  cases hl : (cs.filter (fun c => c.is_pinned)).map (fun c => c.pin_order)
    with
  | nil => exact le_refl 0
  | cons x xs =>
      have hx : x ∈ pinnedOrders cs := by
        unfold pinnedOrders
        rw [hl]
        simp
      obtain ⟨c, hc, hcp, hco⟩ := mem_pinnedOrders.mp hx
      have h1x : (1:Int) ≤ x := hco ▸ h4 c hc hcp
      exact le_trans (by omega) (init_le_foldl_max xs x)

theorem pinnedOrders_append (l1 l2 : List Clip) :
    pinnedOrders (l1 ++ l2) = pinnedOrders l1 ++ pinnedOrders l2 := by
  unfold pinnedOrders
  rw [List.filter_append, List.map_append]

theorem pinnedOrders_cons (c : Clip) (l : List Clip) :
    pinnedOrders (c :: l) =
      (if c.is_pinned then [c.pin_order] else []) ++ pinnedOrders l := by
  unfold pinnedOrders
  cases hc : c.is_pinned <;> simp [List.filter_cons, hc]

theorem pinInv_initial : PinInv initialState := by
  refine ⟨by simp [initialState], by simp [initialState], ?_,
    by simp [initialState], by simp [initialState]⟩
  simp [initialState, pinnedOrders]

theorem pinInv_add {s : StoreState} (h : PinInv s)
    (ty content tag : String) (t : Int) :
    PinInv (add_clip s ty content tag t).1 := by
  cases hf : findByHash s.clips (compute_hash content) with
  | some e =>
      rw [add_clip_dup ty content tag t hf]
      show PinInvL (updateClip s.clips e.id (touchUpdated t)) s.next_id
      rw [updateClip_eq_map]
      exact pinInvL_map_shape h _ (whereId_id _ _ (fun c => rfl))
        (whereId_pinned _ _ (fun c => rfl))
        (whereId_order _ _ (fun c => rfl))
  | none =>
      rw [add_clip_new ty content tag t hf]
      show PinInvL (s.clips ++ [newRow s.next_id ty content tag t])
        (s.next_id + 1)
      exact pinInvL_append_unpinned h _ rfl rfl rfl

theorem pinInv_update_tag {s : StoreState} (h : PinInv s) (cid : Nat)
    (tag : String) : PinInv (update_tag s cid tag).1 := by
  show PinInvL (updateClip s.clips cid (fun c => { c with tag := tag }))
    s.next_id
  rw [updateClip_eq_map]
  exact pinInvL_map_shape h _ (whereId_id _ _ (fun c => rfl))
    (whereId_pinned _ _ (fun c => rfl)) (whereId_order _ _ (fun c => rfl))

theorem pinInv_update_group {s : StoreState} (h : PinInv s) (cid : Nat)
    (g : String) : PinInv (update_group s cid g).1 := by
  show PinInvL
    (updateClip s.clips cid (fun c => { c with group_name := g }))
    s.next_id
  rw [updateClip_eq_map]
  exact pinInvL_map_shape h _ (whereId_id _ _ (fun c => rfl))
    (whereId_pinned _ _ (fun c => rfl)) (whereId_order _ _ (fun c => rfl))

theorem pinInv_delete {s : StoreState} (h : PinInv s) (cid : Nat) :
    PinInv (delete_clip s cid).1 := by
  show PinInvL (s.clips.filter (fun c => ¬ c.id = cid)) s.next_id
  exact pinInvL_filter h _

theorem pinInv_clear_history {s : StoreState} (h : PinInv s) :
    PinInv (clear_history s).1 := by
  show PinInvL (s.clips.filter (fun c => c.is_pinned)) s.next_id
  exact pinInvL_filter h _

theorem pinInv_clear_pinned {s : StoreState} (h : PinInv s) :
    PinInv (clear_pinned s).1 := by
  show PinInvL (s.clips.filter (fun c => ¬ c.is_pinned)) s.next_id
  exact pinInvL_filter h _

theorem pinInv_unpin {s : StoreState} (h : PinInv s) (cid : Nat)
    (t : Int) : PinInv (unpin_clip s cid t).1 := by
  show PinInvL (updateClip s.clips cid (fun c =>
    { c with is_pinned := false, pin_order := 0, updated_at := t }))
    s.next_id
  by_cases hex : ∃ c ∈ s.clips, c.id = cid
  case neg =>
    rw [updateClip_not_found _ (fun x hx he => hex ⟨x, hx, he⟩)]
    exact h
  case pos =>
    obtain ⟨c0, hc0m, hc0id⟩ := hex
    obtain ⟨l1, l2, hsp⟩ := List.append_of_mem hc0m
    obtain ⟨h1, h2, h3, h4, h5⟩ := h
    rw [hsp] at h1 h2 h3 h4 h5 ⊢
    have hother : ∀ x ∈ l1 ++ l2, x.id ≠ cid := fun x hx he =>
      (other_ids h1 x hx) (he.trans hc0id.symm)
    rw [updateClip_split _ hother hc0id]
    refine ⟨?_, ?_, ?_, ?_, ?_⟩
    · rw [List.map_append, List.map_cons] at h1 ⊢
      exact h1
    · intro x hx
      rcases List.mem_append.mp hx with hx | hx
      · exact h2 x (List.mem_append_left _ hx)
      · rcases List.mem_cons.mp hx with rfl | hx
        · exact h2 c0 (by simp)
        · exact h2 x (by simp [hx])
    · rw [pinnedOrders_append, pinnedOrders_cons] at h3 ⊢
      simp only [if_false]
      refine h3.sublist ?_
      exact List.Sublist.append_left
        (by cases hc0p : c0.is_pinned <;>
          simp [hc0p, List.sublist_append_right]) _
    · intro x hx hp
      rcases List.mem_append.mp hx with hx | hx
      · exact h4 x (List.mem_append_left _ hx) hp
      · rcases List.mem_cons.mp hx with rfl | hx
        · cases hp
        · exact h4 x (by simp [hx]) hp
    · intro x hx hp
      rcases List.mem_append.mp hx with hx | hx
      · exact h5 x (List.mem_append_left _ hx) hp
      · rcases List.mem_cons.mp hx with rfl | hx
        · rfl
        · exact h5 x (by simp [hx]) hp

theorem pinInv_pin {s : StoreState} (h : PinInv s) (cid : Nat) (t : Int) :
    PinInv (pin_clip s cid t).1 := by
  show PinInvL (updateClip s.clips cid (fun c =>
    { c with is_pinned := true, pin_order := maxPinOrder s.clips + 1,
             updated_at := t }))
    s.next_id
  by_cases hex : ∃ c ∈ s.clips, c.id = cid
  case neg =>
    rw [updateClip_not_found _ (fun x hx he => hex ⟨x, hx, he⟩)]
    exact h
  case pos =>
    obtain ⟨c0, hc0m, hc0id⟩ := hex
    obtain ⟨l1, l2, hsp⟩ := List.append_of_mem hc0m
    obtain ⟨h1, h2, h3, h4, h5⟩ := h
    rw [hsp] at h1 h2 h3 h4 h5 ⊢
    have hother : ∀ x ∈ l1 ++ l2, x.id ≠ cid := fun x hx he =>
      (other_ids h1 x hx) (he.trans hc0id.symm)
    rw [updateClip_split _ hother hc0id]
    have hP12 : (pinnedOrders l1 ++ pinnedOrders l2).Nodup := by
      rw [pinnedOrders_append, pinnedOrders_cons] at h3
      refine h3.sublist ?_
      exact List.Sublist.append_left (List.sublist_append_right _ _) _
    have hMnotin : maxPinOrder (l1 ++ c0 :: l2) + 1
        ∉ pinnedOrders l1 ++ pinnedOrders l2 := by
      intro hmem
      have hmem' : maxPinOrder (l1 ++ c0 :: l2) + 1
          ∈ pinnedOrders (l1 ++ c0 :: l2) := by
        rw [pinnedOrders_append, pinnedOrders_cons]
        rcases List.mem_append.mp hmem with hm | hm
        · exact List.mem_append_left _ hm
        · exact List.mem_append_right _ (List.mem_append_right _ hm)
      have := le_maxPinOrder hmem'
      omega
    refine ⟨?_, ?_, ?_, ?_, ?_⟩
    · rw [List.map_append, List.map_cons] at h1 ⊢
      exact h1
    · intro x hx
      rcases List.mem_append.mp hx with hx | hx
      · exact h2 x (List.mem_append_left _ hx)
      · rcases List.mem_cons.mp hx with rfl | hx
        · exact h2 c0 (by simp)
        · exact h2 x (by simp [hx])
    · rw [pinnedOrders_append, pinnedOrders_cons]
      simp only [if_true]
      rw [show ([maxPinOrder (l1 ++ c0 :: l2) + 1] ++ pinnedOrders l2)
            = (maxPinOrder (l1 ++ c0 :: l2) + 1) :: pinnedOrders l2
          from rfl]
      exact List.nodup_middle.mpr (List.nodup_cons.mpr ⟨hMnotin, hP12⟩)
    · intro x hx hp
      rcases List.mem_append.mp hx with hx | hx
      · exact h4 x (List.mem_append_left _ hx) hp
      · rcases List.mem_cons.mp hx with rfl | hx
        · show (1:Int) ≤ maxPinOrder (l1 ++ c0 :: l2) + 1
          have := maxPinOrder_nonneg h4
          omega
        · exact h4 x (by simp [hx]) hp
    · intro x hx hp
      rcases List.mem_append.mp hx with hx | hx
      · exact h5 x (List.mem_append_left _ hx) hp
      · rcases List.mem_cons.mp hx with rfl | hx
        · cases hp
        · exact h5 x (by simp [hx]) hp

theorem pinInvL_rewrite {cs : List Clip} {nid : Nat} (h : PinInvL cs nid)
    (ids : List Nat) (base : Int) :
    PinInvL (rewriteTimestamps cs ids base) nid := by
  unfold rewriteTimestamps
  generalize ids.enum = l
  induction l generalizing cs with
  | nil => exact h
  | cons p ps ih =>
      rw [List.foldl_cons]
      apply ih
      rw [updateClip_eq_map]
      exact pinInvL_map_shape h _ (whereId_id _ _ (fun c => rfl))
        (whereId_pinned _ _ (fun c => rfl))
        (whereId_order _ _ (fun c => rfl))

theorem pinInv_move_history {s : StoreState} (h : PinInv s) (cid : Nat)
    (d t : Int) : PinInv (move_clip s cid d false t).1 := by
  simp only [move_clip, Bool.false_eq_true, if_false, move_history]
  split
  · split
    · exact pinInvL_rewrite h _ _
    · exact h
  · exact h

theorem pinInv_import {s : StoreState} (h : PinInv s)
    (recs : List ClipRecord) (t : Int)
    (hrec : ∀ r ∈ recs, r.is_pinned = false) :
    PinInv (import_clips s recs t).1 := by
  unfold import_clips
  have haux : ∀ (rs : List ClipRecord) (acc : StoreState × Nat),
      PinInv acc.1 → (∀ r ∈ rs, r.is_pinned = false) →
      PinInv ((rs.foldl (importOne t) acc).1) := by
    intro rs
    induction rs with
    | nil => exact fun acc hacc _ => hacc
    | cons r rest ih =>
        intro acc hacc hrs
        rw [List.foldl_cons]
        apply ih _ ?_ (fun x hx => hrs x (List.mem_cons_of_mem r hx))
        simp only [importOne]
        split
        · exact hacc
        · show PinInvL (acc.1.clips ++ [_]) (acc.1.next_id + 1)
          exact pinInvL_append_unpinned hacc _ rfl
            (hrs r (by simp)) rfl
  exact haux recs (s, 0) h hrec

@[simp] theorem whereId_setOrder_id (cid : Nat) (o : Int) (c : Clip) :
    (whereId cid (setOrder o) c).id = c.id :=
  whereId_id cid (setOrder o) (fun _ => rfl) c

@[simp] theorem whereId_setOrder_pinned (cid : Nat) (o : Int) (c : Clip) :
    (whereId cid (setOrder o) c).is_pinned = c.is_pinned :=
  whereId_pinned cid (setOrder o) (fun _ => rfl) c

theorem swapInt_inj (o n : Int) : Function.Injective (swapInt o n) := by
  intro a b hab
  unfold swapInt at hab
  split_ifs at hab <;> omega

theorem pinInv_move_pinned {s : StoreState} (h : PinInv s) (cid : Nat)
    (d t : Int) (hex : ∃ c ∈ s.clips, c.id = cid ∧ c.is_pinned = true) :
    PinInv (move_clip s cid d true t).1 := by
  obtain ⟨c, hcmem, hcid, hcp⟩ := hex
  have hids : (s.clips.map Clip.id).Nodup := h.1
  have hc : findClip s.clips cid = some c := by
    apply find?_eq_some_unique hcmem (by simp [hcid])
    intro x hx hpx
    apply eq_of_id_nodup hids hx hcmem
    have hxid : x.id = cid := by simpa using hpx
    rw [hxid, hcid]
  simp only [move_clip, if_true]
  cases htg : s.clips.find?
      (fun x => x.is_pinned && decide (x.pin_order = c.pin_order + d)) with
  | none =>
      rw [move_pinned_boundary hc htg]
      exact h
  | some tg =>
      rw [move_pinned_target hc htg]
      have htgmem : tg ∈ s.clips := List.mem_of_find?_eq_some htg
      have htgfact := List.find?_some htg
      rw [Bool.and_eq_true, decide_eq_true_eq] at htgfact
      obtain ⟨htgp, htgo⟩ := htgfact
      show PinInvL (updateClip (updateClip (updateClip s.clips cid
        (setOrder (c.pin_order + d))) tg.id (setOrder c.pin_order)) tg.id
        (setOrder c.pin_order)) s.next_id
      have hcs3m : (updateClip (updateClip (updateClip s.clips cid
            (setOrder (c.pin_order + d))) tg.id (setOrder c.pin_order))
            tg.id (setOrder c.pin_order))
          = s.clips.map (fun y =>
              whereId tg.id (setOrder c.pin_order)
                (whereId tg.id (setOrder c.pin_order)
                  (whereId cid (setOrder (c.pin_order + d)) y))) := by
        rw [updateClip_eq_map, updateClip_eq_map, updateClip_eq_map,
          List.map_map, List.map_map]
        rfl
      rw [hcs3m]
      obtain ⟨h1, h2, h3, h4, h5⟩ := h
      have hGfacts : ∀ y ∈ s.clips,
          ((whereId tg.id (setOrder c.pin_order)
            (whereId tg.id (setOrder c.pin_order)
              (whereId cid (setOrder (c.pin_order + d)) y))).id = y.id
          ∧ (whereId tg.id (setOrder c.pin_order)
              (whereId tg.id (setOrder c.pin_order)
                (whereId cid (setOrder (c.pin_order + d)) y))).is_pinned
              = y.is_pinned)
          ∧ (y.is_pinned = true →
              (whereId tg.id (setOrder c.pin_order)
                (whereId tg.id (setOrder c.pin_order)
                  (whereId cid (setOrder (c.pin_order + d)) y))).pin_order
              = swapInt c.pin_order (c.pin_order + d) y.pin_order)
          ∧ (y.is_pinned = false →
              (whereId tg.id (setOrder c.pin_order)
                (whereId tg.id (setOrder c.pin_order)
                  (whereId cid (setOrder (c.pin_order + d)) y))).pin_order
              = y.pin_order) := by
        intro y hym
        refine ⟨⟨?_, ?_⟩, ?_, ?_⟩
        · simp only [whereId_setOrder_id]
        · simp only [whereId_setOrder_pinned]
        · intro hyp
          by_cases hy1 : y.id = cid
          · have hyc : y = c := eq_of_id_nodup hids hym hcmem
              (by rw [hy1, hcid])
            subst hyc
            by_cases hy2 : y.id = tg.id
            · have hty : tg = y := eq_of_id_nodup hids htgmem hym hy2.symm
              rw [hty] at htgo
              have hd0 : d = 0 := by omega
              simp [whereId, hy1, hy2, setOrder, swapInt, hd0]
            · have hne : ¬ cid = tg.id := by rw [← hy1]; exact hy2
              simp [whereId, hy1, hy2, hne, setOrder, swapInt]
          · by_cases hy2 : y.id = tg.id
            · have hty : y = tg := eq_of_id_nodup hids hym htgmem hy2
              subst hty
              simp only [whereId, hy1, if_false, hy2, if_true,
                setOrder_id, setOrder, swapInt]
              rw [htgo]
              split_ifs <;> omega
            · have hno : y.pin_order ≠ c.pin_order := by
                intro he
                have hyc : y = c :=
                  eq_of_pinnedOrders_nodup h3 hym hcmem hyp hcp he
                apply hy1
                rw [hyc, hcid]
              have hnn : y.pin_order ≠ c.pin_order + d := by
                intro he
                have hyt : y = tg := eq_of_pinnedOrders_nodup h3 hym
                  htgmem hyp htgp (he.trans htgo.symm)
                apply hy2
                rw [hyt]
              simp [whereId, hy1, hy2, setOrder, swapInt, hno, hnn]
        · intro hyp
          have hy1 : ¬ y.id = cid := by
            intro he
            have hyc : y = c := eq_of_id_nodup hids hym hcmem
              (by rw [he, hcid])
            rw [hyc, hcp] at hyp
            cases hyp
          have hy2 : ¬ y.id = tg.id := by
            intro he
            have hyt : y = tg := eq_of_id_nodup hids hym htgmem he
            rw [hyt, htgp] at hyp
            cases hyp
          simp [whereId, hy1, hy2]
      refine ⟨?_, ?_, ?_, ?_, ?_⟩
      · rw [List.map_map]
        have hmape : s.clips.map (Clip.id ∘ (fun y =>
            whereId tg.id (setOrder c.pin_order)
              (whereId tg.id (setOrder c.pin_order)
                (whereId cid (setOrder (c.pin_order + d)) y))))
            = s.clips.map Clip.id :=
          List.map_congr_left (fun y hy => ((hGfacts y hy).1).1)
        rw [hmape]
        exact h1
      · intro x hx
        obtain ⟨y, hy, rfl⟩ := List.mem_map.mp hx
        rw [((hGfacts y hy).1).1]
        exact h2 y hy
      · unfold pinnedOrders
        rw [List.filter_map]
        have hp : ∀ y ∈ s.clips,
            ((fun c : Clip => c.is_pinned) ∘ (fun y =>
              whereId tg.id (setOrder c.pin_order)
                (whereId tg.id (setOrder c.pin_order)
                  (whereId cid (setOrder (c.pin_order + d)) y)))) y
            = (fun c : Clip => c.is_pinned) y :=
          fun y hy => ((hGfacts y hy).1).2
        rw [List.filter_congr hp, List.map_map]
        have hmapo : (s.clips.filter (fun c => c.is_pinned)).map
            ((fun c : Clip => c.pin_order) ∘ (fun y =>
              whereId tg.id (setOrder c.pin_order)
                (whereId tg.id (setOrder c.pin_order)
                  (whereId cid (setOrder (c.pin_order + d)) y))))
            = (s.clips.filter (fun c => c.is_pinned)).map
              ((swapInt c.pin_order (c.pin_order + d))
                ∘ (fun c : Clip => c.pin_order)) :=
          List.map_congr_left (fun y hy =>
            ((hGfacts y (List.mem_of_mem_filter hy)).2).1
              (List.of_mem_filter hy))
        rw [hmapo, ← List.map_map]
        exact List.Nodup.map (swapInt_inj _ _) h3
      · intro x hx hp
        obtain ⟨y, hy, rfl⟩ := List.mem_map.mp hx
        have hyp : y.is_pinned = true := by
          rw [← ((hGfacts y hy).1).2]
          exact hp
        rw [((hGfacts y hy).2).1 hyp]
        have hn1 : (1:Int) ≤ c.pin_order + d := by
          have := h4 tg htgmem htgp
          omega
        have ho1 := h4 c hcmem hcp
        have hy1 := h4 y hy hyp
        unfold swapInt
        split_ifs <;> omega
      · intro x hx hp
        obtain ⟨y, hy, rfl⟩ := List.mem_map.mp hx
        have hyp : y.is_pinned = false := by
          rw [← ((hGfacts y hy).1).2]
          exact hp
        rw [((hGfacts y hy).2).2 hyp]
        exact h5 y hy hyp

/-- C6 (counterexample): the state reached by importing two pinned records
into a fresh store is reachable through the public operations, yet its two
pinned rows share `pin_order = 0` — `import_clips` drops the records'
`pin_order`, so pin orders are not pairwise distinct in every reachable
state. -/
theorem pinOrder_unique_cex :
    Reach (import_clips initialState
      [pinnedRecord "a", pinnedRecord "b"] 0).1
    ∧ (pinnedOrders (import_clips initialState
        [pinnedRecord "a", pinnedRecord "b"] 0).1.clips)
        = [0, 0]
    ∧ ¬ (pinnedOrders (import_clips initialState
        [pinnedRecord "a", pinnedRecord "b"] 0).1.clips).Nodup :=
  ⟨Reach.imp initialState [pinnedRecord "a", pinnedRecord "b"] 0
      Reach.init,
   by decide, by decide⟩

/-- C6 (amended): in every store state reachable through the public
operations — with `move(id, d, pinned=true)` invoked only on currently
pinned ids and `import_clips` given only unpinned records — the pin
orders of pinned rows are pairwise distinct (and positive), every
unpinned row has pin order 0, and unpinning any id in any such state
resets that row to unpinned with pin order 0. -/
theorem pinOrder_invariant (s : StoreState) (h : ReachR s) :
    (pinnedOrders s.clips).Nodup
    ∧ (∀ c ∈ s.clips, c.is_pinned = true → 1 ≤ c.pin_order)
    ∧ (∀ c ∈ s.clips, c.is_pinned = false → c.pin_order = 0)
    ∧ (∀ cid t, ∀ c ∈ (unpin_clip s cid t).1.clips, c.id = cid →
        c.is_pinned = false ∧ c.pin_order = 0) := by
  have hinv : PinInv s := by
    induction h with
    | init => exact pinInv_initial
    | add s ty content tag t _ ih => exact pinInv_add ih ty content tag t
    | pin s cid t _ ih => exact pinInv_pin ih cid t
    | unpin s cid t _ ih => exact pinInv_unpin ih cid t
    | del s cid _ ih => exact pinInv_delete ih cid
    | tag s cid tg _ ih => exact pinInv_update_tag ih cid tg
    | grp s cid g _ ih => exact pinInv_update_group ih cid g
    | mvPin s cid d t _ hex ih => exact pinInv_move_pinned ih cid d t hex
    | mvHist s cid d t _ ih => exact pinInv_move_history ih cid d t
    | clrH s _ ih => exact pinInv_clear_history ih
    | clrP s _ ih => exact pinInv_clear_pinned ih
    | imp s recs t _ hrec ih => exact pinInv_import ih recs t hrec
  refine ⟨hinv.2.2.1, hinv.2.2.2.1, hinv.2.2.2.2, ?_⟩
  intro cid t c hc hcid
  have hc' : c ∈ updateClip s.clips cid (fun c =>
      { c with is_pinned := false, pin_order := 0, updated_at := t }) := hc
  rw [updateClip_eq_map] at hc'
  obtain ⟨y, hy, rfl⟩ := List.mem_map.mp hc'
  by_cases hyid : y.id = cid
  · simp [whereId, hyid]
  · rw [show whereId cid (fun c =>
        { c with is_pinned := false, pin_order := 0, updated_at := t }) y
        = y from if_neg hyid] at hcid ⊢
    exact absurd hcid hyid

/-- Witness for C6 at the store reached by adding one clip and pinning
it. -/
theorem pinOrder_invariant_witness :
    (pinnedOrders
      (pin_clip (add_clip initialState "text" "a" "" 0).1 1 1).1.clips).Nodup
    ∧ (∀ c ∈ (pin_clip (add_clip initialState "text" "a" "" 0).1
          1 1).1.clips, c.is_pinned = true → 1 ≤ c.pin_order)
    ∧ (∀ c ∈ (pin_clip (add_clip initialState "text" "a" "" 0).1
          1 1).1.clips, c.is_pinned = false → c.pin_order = 0)
    ∧ (∀ cid t, ∀ c ∈ (unpin_clip
          (pin_clip (add_clip initialState "text" "a" "" 0).1 1 1).1
          cid t).1.clips,
        c.id = cid → c.is_pinned = false ∧ c.pin_order = 0) :=
  pinOrder_invariant (pin_clip (add_clip initialState "text" "a" "" 0).1
      1 1).1
    (ReachR.pin (add_clip initialState "text" "a" "" 0).1 1 1
      (ReachR.add initialState "text" "a" "" 0 ReachR.init))
